import Mathlib

set_option maxHeartbeats 1000000
set_option maxRecDepth 8192

namespace Mbase

/- ----------------------------------------------------------------
Shallow embedding of deejayy/mbase-cli.

Conventions:
* Rust `u8` bytes are `Nat` (theorems carry `< 256` bounds where needed);
  Rust `u32`/`u16` intermediates never overflow in the translated code
  paths (each file notes why), so they are also plain `Nat`.
* Rust `&str` values are `List Char` (Unicode scalars, like Rust `char`).
* Fallible Rust functions returning `Result<T, MbaseError>` become
  `Except MbaseError T`.
* `String::to_uppercase`/`to_lowercase` are modelled with
  `Char.toUpper`/`Char.toLower` (exact on ASCII; the multi-char Unicode
  special cases are not exercised by any theorem below, which only
  evaluate these maps on ASCII alphabets).
---------------------------------------------------------------- -/

/-- src/types.rs `Mode`. -/
inductive Mode
| Strict
| Lenient
deriving DecidableEq, Repr

/-- src/error.rs `LengthConstraint`. -/
inductive LengthConstraint
| Exact : Nat → LengthConstraint
| MultipleOf : Nat → LengthConstraint
| Range : Nat → Option Nat → LengthConstraint
deriving DecidableEq, Repr

/-- src/error.rs `MbaseError`.  `Io` carries the rendered message of the
underlying `std::io::Error`. -/
inductive MbaseError
| InvalidInput : String → MbaseError
| InvalidCharacter : Char → Nat → MbaseError
| InvalidLength : LengthConstraint → Nat → String → MbaseError
| InvalidPadding : String → MbaseError
| ChecksumMismatch : MbaseError
| Io : String → MbaseError
| UnsupportedCodec : String → MbaseError
deriving DecidableEq, Repr

/-- The error "kind": the taxonomy tag with the payload erased
(spec §7's closed taxonomy). -/
inductive ErrorKind
| InvalidInput
| InvalidCharacter
| InvalidLength
| InvalidPadding
| ChecksumMismatch
| IoError
| UnsupportedCodec
deriving DecidableEq, Repr

/-- Kind of an error value. -/
def MbaseError.kind : MbaseError → ErrorKind
| .InvalidInput _ => .InvalidInput
| .InvalidCharacter _ _ => .InvalidCharacter
| .InvalidLength _ _ _ => .InvalidLength
| .InvalidPadding _ => .InvalidPadding
| .ChecksumMismatch => .ChecksumMismatch
| .Io _ => .IoError
| .UnsupportedCodec _ => .UnsupportedCodec

/-- src/error.rs `ExitCode` (the `#[repr(u8)]` enum). -/
inductive ExitCode
| Success
| GeneralError
| InvalidInput
| ChecksumMismatch
| IoError
| UnsupportedCodec
deriving DecidableEq, Repr

/-- The numeric discriminants assigned in src/error.rs lines 6-13. -/
def ExitCode.code : ExitCode → Nat
| .Success => 0
| .GeneralError => 1
| .InvalidInput => 10
| .ChecksumMismatch => 11
| .IoError => 12
| .UnsupportedCodec => 13

/-- src/error.rs `MbaseError::exit_code`. -/
def MbaseError.exit_code : MbaseError → ExitCode
| .InvalidInput _ => .InvalidInput
| .InvalidCharacter _ _ => .InvalidInput
| .InvalidLength _ _ _ => .InvalidInput
| .InvalidPadding _ => .InvalidInput
| .ChecksumMismatch => .ChecksumMismatch
| .Io _ => .IoError
| .UnsupportedCodec _ => .UnsupportedCodec

/-- Decidable equality for `Except` results (used by the finite
`decide`-based table lemmas below). -/
instance {e a : Type} [DecidableEq e] [DecidableEq a] : DecidableEq (Except e a) := fun x y =>
  match x, y with
  | .ok u, .ok v =>
      match decEq u v with
      | isTrue h => isTrue (h ▸ rfl)
      | isFalse h => isFalse fun hc => h (Except.ok.inj hc)
  | .error u, .error v =>
      match decEq u v with
      | isTrue h => isTrue (h ▸ rfl)
      | isFalse h => isFalse fun hc => h (Except.error.inj hc)
  | .ok _, .error _ => isFalse fun hc => Except.noConfusion hc
  | .error _, .ok _ => isFalse fun hc => Except.noConfusion hc

/-- Rust `char::is_ascii_whitespace`: space, horizontal tab, line feed,
form feed, carriage return. -/
def isAsciiWhitespace (c : Char) : Bool :=
  c == ' ' || c == '\t' || c == '\n' || c == '\x0C' || c == '\r'

/-- Rust `char::is_whitespace` (Unicode `White_Space`), restricted to the
scalars below U+0086; the exotic Unicode members (U+00A0, U+1680, the
U+2000 block, ...) are omitted because no theorem below evaluates the
functions using this predicate outside ASCII. -/
def isRustWhitespace (c : Char) : Bool :=
  (0x09 ≤ c.toNat && c.toNat ≤ 0x0D) || c == ' ' || c == '\x85'

/-- src/codec/util.rs `clean_for_mode`. -/
def clean_for_mode (input : List Char) (mode : Mode) : List Char :=
  match mode with
  | .Strict => input
  | .Lenient => input.filter (fun c => !(isAsciiWhitespace c))

/- ----------------------------------------------------------------
Base45 (src/codec/base45.rs)
---------------------------------------------------------------- -/

/-- src/codec/base45.rs `ALPHABET`. -/
def base45Alphabet : List Char := "0123456789ABCDEFGHIJKLMNOPQRSTUVWXYZ $%*+-./:".data

/-- src/codec/base45.rs `char_to_val`. -/
def char_to_val (c : Char) : Option Nat :=
  base45Alphabet.findIdx? (fun x => x == c)

/-- src/codec/base45.rs `val_to_char`.  The Rust code unwraps the lookup;
the translation returns `'?'` out of range (never reached: every call
site passes a value < 45). -/
def val_to_char (v : Nat) : Char :=
  base45Alphabet.getD v '?'

/-- src/codec/base45.rs `encode_base45`, chunking the input two bytes at
a time.  `u32` arithmetic cannot overflow: `n ≤ 255*256+255 = 65535`. -/
def encode_base45 : List Nat → List Char
| [] => []
| [b] => [val_to_char (b % 45), val_to_char (b / 45 % 45)]
| b0 :: b1 :: rest =>
    let n := b0 * 256 + b1
    val_to_char (n % 45) :: val_to_char (n / 45 % 45) ::
      val_to_char (n / (45 * 45)) :: encode_base45 rest

/-- The symbol-to-value pass of src/codec/base45.rs `decode_base45`
(the `enumerate().map(...).collect::<Result<..>>()`), with the running
position. -/
def base45_vals : List Char → Nat → Except MbaseError (List Nat)
| [], _ => .ok []
| c :: cs, pos =>
    match char_to_val c with
    | none => .error (.InvalidCharacter c pos)
    | some v => do
        let rest ← base45_vals cs (pos + 1)
        .ok (v :: rest)

/-- The chunk-of-three reassembly loop of src/codec/base45.rs
`decode_base45`.  The one-element chunk arises only when the total
length is 1 mod 3, which the caller has already rejected; the Rust code
would index `chunk[1]` out of bounds there, and the translation treats
the missing digit as 0 (the case is unreachable from `decode_base45`). -/
def base45_chunks : List Nat → Except MbaseError (List Nat)
| [] => .ok []
| [a] =>
    if a > 0xFF then .error (.InvalidInput "base45 value overflow")
    else .ok [a]
| [a, b] =>
    let n := a + b * 45
    if n > 0xFF then .error (.InvalidInput "base45 value overflow")
    else .ok [n]
| a :: b :: c :: rest =>
    let n := a + b * 45 + c * (45 * 45)
    if n > 0xFFFF then .error (.InvalidInput "base45 value overflow")
    else do
      let tail ← base45_chunks rest
      .ok (n / 256 :: n % 256 :: tail)

/-- src/codec/base45.rs `decode_base45`. -/
def decode_base45 (input : List Char) (mode : Mode) : Except MbaseError (List Nat) :=
  let cleaned := clean_for_mode input mode
  if cleaned.isEmpty then .ok []
  else
    let normalized := match mode with
      | .Strict => cleaned
      | .Lenient => cleaned.map Char.toUpper
    match base45_vals normalized 0 with
    | .error e => .error e
    | .ok vals =>
        if vals.length % 3 == 1 then
          .error (.InvalidInput ("base45 length " ++ toString vals.length ++
            " invalid (cannot be 1 mod 3)"))
        else base45_chunks vals

/- ----------------------------------------------------------------
Tap code (src/codec/unicode_tap.rs `TapCode`)
---------------------------------------------------------------- -/

/-- Rust `String::from_utf8_lossy`, restricted to the one-byte (ASCII)
case; bytes ≥ 0x80 become U+FFFD one-for-one (an approximation of the
lossy UTF-8 decoder that no theorem below exercises: they only use
ASCII inputs). -/
def utf8Lossy (bs : List Nat) : List Char :=
  bs.map (fun b => if b < 128 then Char.ofNat b else '�')

/-- The per-character body of the `filter_map` in
src/codec/unicode_tap.rs `TapCode::encode`: grid position, then the
two-digit row/column code; `' '` maps to two spaces; everything else is
dropped. -/
def tapCharCode (c : Char) : Option (List Char) :=
  if 'A' ≤ c && c ≤ 'Z' then
    let p0 := c.toNat - 'A'.toNat
    let p := if c == 'K' then 2 else if 'K' ≤ c then p0 - 1 else p0
    let row := p / 5 + 1
    let col := p % 5 + 1
    some [Char.ofNat (48 + row), Char.ofNat (48 + col)]
  else if c == ' ' then some [' ', ' ']
  else none

/-- Rust `Vec::join(sep)`. -/
def joinSep (sep : List Char) : List (List Char) → List Char
| [] => []
| [t] => t
| t :: ts => t ++ sep ++ joinSep sep ts

/-- src/codec/unicode_tap.rs `TapCode::encode`. -/
def tap_encode (input : List Nat) : Except MbaseError (List Char) :=
  let text := (utf8Lossy input).map Char.toUpper
  let codes := text.filterMap tapCharCode
  if codes.isEmpty then .error (.InvalidInput "no encodable characters found")
  else .ok (joinSep [' '] codes)

/-- Rust `str::trim` (both ends, `char::is_whitespace`). -/
def strTrim (s : List Char) : List Char :=
  ((s.dropWhile (fun c => isRustWhitespace c)).reverse.dropWhile
    (fun c => isRustWhitespace c)).reverse

/-- `dropWhile` never lengthens a list (recursion measure helper). -/
theorem dropWhile_length_le {α : Type} (p : α → Bool) (l : List α) :
    (l.dropWhile p).length ≤ l.length := by
  induction l with
  | nil => simp [List.dropWhile]
  | cons a l ih =>
    simp only [List.dropWhile]
    split
    · exact Nat.le_succ_of_le ih
    · exact Nat.le_refl _

/-- Fuel-indexed body of `splitWhitespace` (fuel ≥ length is enough:
`splitWsGo_irrel`). -/
def splitWsGo : Nat → List Char → List (List Char)
| 0, _ => []
| _, [] => []
| fuel + 1, c :: cs =>
    if isRustWhitespace c then splitWsGo fuel cs
    else
      (c :: cs.takeWhile (fun x => !isRustWhitespace x)) ::
        splitWsGo fuel (cs.dropWhile (fun x => !isRustWhitespace x))

/-- Rust `str::split_whitespace`: maximal runs of non-whitespace. -/
def splitWhitespace (s : List Char) : List (List Char) := splitWsGo s.length s

theorem splitWsGo_irrel : ∀ f1 f2 (s : List Char), s.length ≤ f1 → s.length ≤ f2 →
    splitWsGo f1 s = splitWsGo f2 s := by
  intro f1
  induction f1 using Nat.strong_induction_on with
  | _ f1 ih =>
    intro f2 s h1 h2
    rcases s with _ | ⟨c, cs⟩
    · have e : ∀ f : Nat, splitWsGo f [] = [] := fun f => by cases f <;> rfl
      rw [e, e]
    · simp only [List.length_cons] at h1 h2
      rcases f1 with _ | f1
      · omega
      rcases f2 with _ | f2
      · omega
      simp only [splitWsGo]
      by_cases hc : isRustWhitespace c
      · rw [if_pos hc, if_pos hc]
        exact ih f1 (by omega) f2 cs (by omega) (by omega)
      · rw [if_neg hc, if_neg hc]
        congr 1
        have hd := dropWhile_length_le (fun x => !isRustWhitespace x) cs
        exact ih f1 (by omega) f2 _ (by omega) (by omega)

/-- The defining recurrence of `splitWhitespace` on a cons cell. -/
theorem splitWhitespace_cons (c : Char) (cs : List Char) :
    splitWhitespace (c :: cs) =
      if isRustWhitespace c then splitWhitespace cs
      else
        (c :: cs.takeWhile (fun x => !isRustWhitespace x)) ::
          splitWhitespace (cs.dropWhile (fun x => !isRustWhitespace x)) := by
  show splitWsGo (cs.length + 1) (c :: cs) = _
  rw [splitWsGo]
  by_cases hc : isRustWhitespace c
  · rw [if_pos hc, if_pos hc]
    rfl
  · rw [if_neg hc, if_neg hc]
    congr 1
    have hd := dropWhile_length_le (fun x => !isRustWhitespace x) cs
    exact splitWsGo_irrel cs.length
      (cs.dropWhile (fun x => !isRustWhitespace x)).length
      (cs.dropWhile (fun x => !isRustWhitespace x)) (by omega) (by omega)

/-- Rust `char::to_digit(10)`. -/
def toDigit10 (c : Char) : Option Nat :=
  if '0' ≤ c && c ≤ '9' then some (c.toNat - 48) else none

/-- The per-pair body of src/codec/unicode_tap.rs `TapCode::decode`. -/
def tapDecodePair (pair : List Char) : Except MbaseError Char :=
  if pair.length ≠ 2 then
    .error (.InvalidInput ("invalid tap code pair: " ++ String.mk pair))
  else
    match toDigit10 (pair.getD 0 ' ') with
    | none => .error (.InvalidInput ("invalid row digit: " ++ String.mk pair))
    | some row =>
        match toDigit10 (pair.getD 1 ' ') with
        | none => .error (.InvalidInput ("invalid col digit: " ++ String.mk pair))
        | some col =>
            if row < 1 || row > 5 || col < 1 || col > 5 then
              .error (.InvalidInput ("coordinates out of range: " ++ String.mk pair))
            else
              let p := (row - 1) * 5 + (col - 1)
              .ok (if p == 2 then 'C'
                   else if p < 10 then Char.ofNat (65 + p)
                   else Char.ofNat (65 + p + 1))

/-- src/codec/unicode_tap.rs `TapCode::decode`.  `split_whitespace`
never yields an empty token, so the `pair.is_empty()` `continue` is
dead; the final `String::into_bytes` is `Char.toNat` since every
produced character is an ASCII letter. -/
def tap_decode (input : List Char) (mode : Mode) : Except MbaseError (List Nat) := do
  let cleaned := if mode == Mode.Lenient then strTrim input else input
  let chars ← (splitWhitespace cleaned).mapM tapDecodePair
  .ok (chars.map Char.toNat)

/- ----------------------------------------------------------------
The positional big-integer family (spec §4.2).

src/codec/base36.rs, base37.rs and base62.rs contain the identical
grow-and-carry loops with the radix (36/37/62) and alphabet substituted;
`pushCarry`/`mulAddDigits`/`encodeBigDigits`/`decodeBigBytes` are those
loops with the radix as a parameter.  Digit vectors are little-endian
(`Vec` index 0 = least significant digit), matching the Rust `acc` of the
encoders; the decoders keep their byte vector big-endian and walk it with
`iter_mut().rev()` + `insert(0, _)`, which is the same computation on the
reversed list.
---------------------------------------------------------------- -/

/-- Fuel-indexed body of `pushCarry` (the fuel only forces structural
termination; `pushCarryGo_irrel` shows any fuel ≥ carry is enough). -/
def pushCarryGo (B : Nat) : Nat → Nat → List Nat
| 0, _ => []
| fuel + 1, c =>
    if c = 0 ∨ B < 2 then [] else c % B :: pushCarryGo B fuel (c / B)

/-- The `while carry > 0 { acc.push(carry % B); carry /= B }` tail of the
carry loops.  (For `B < 2` it returns `[]`; every use has `B ≥ 36`.) -/
def pushCarry (B carry : Nat) : List Nat := pushCarryGo B carry carry

theorem pushCarryGo_irrel (B : Nat) : ∀ f1 f2 c, c ≤ f1 → c ≤ f2 →
    pushCarryGo B f1 c = pushCarryGo B f2 c := by
  intro f1
  induction f1 using Nat.strong_induction_on with
  | _ f1 ih =>
    intro f2 c h1 h2
    match f1, f2 with
    | 0, 0 => rfl
    | 0, f2 + 1 =>
      have : c = 0 := by omega
      subst this
      simp [pushCarryGo]
    | f1 + 1, 0 =>
      have : c = 0 := by omega
      subst this
      simp [pushCarryGo]
    | f1 + 1, f2 + 1 =>
      simp only [pushCarryGo]
      by_cases hc : c = 0 ∨ B < 2
      · simp [hc]
      · rw [if_neg hc, if_neg hc]
        push_neg at hc
        have hlt : c / B < c := Nat.div_lt_self (Nat.pos_of_ne_zero hc.1) (by omega)
        rw [ih f1 (by omega) f2 (c / B) (by omega) (by omega)]

/-- The defining recurrence of `pushCarry`. -/
theorem pushCarry_unfold (B carry : Nat) :
    pushCarry B carry =
      if carry = 0 ∨ B < 2 then [] else carry % B :: pushCarry B (carry / B) := by
  by_cases hc : carry = 0 ∨ B < 2
  · rcases hc with rfl | hB
    · simp [pushCarry, pushCarryGo]
    · rw [if_pos (Or.inr hB)]
      rcases carry with _ | c
      · rfl
      · show pushCarryGo B (c + 1) (c + 1) = []
        simp [pushCarryGo, hB]
  · rw [if_neg hc]
    push_neg at hc
    rcases hcarry : carry with _ | c
    · exact absurd rfl (hcarry ▸ hc.1)
    · show pushCarryGo B (c + 1) (c + 1) = _
      rw [pushCarryGo, if_neg (by omega)]
      congr 1
      have hlt : (c + 1) / B < c + 1 := Nat.div_lt_self (by omega) (by omega)
      exact pushCarryGo_irrel B c ((c + 1) / B) ((c + 1) / B) (by omega) (by omega)

/-- One multiply-accumulate pass: `carry + M * value(l)` written in
little-endian base-`B` digits, as computed by the
`for digit in acc.iter_mut() { carry += digit * M; digit = carry % B; carry /= B }`
loop followed by `pushCarry`. -/
def mulAddDigits (B M : Nat) : Nat → List Nat → List Nat
| carry, [] => pushCarry B carry
| carry, d :: ds => (carry + d * M) % B :: mulAddDigits B M ((carry + d * M) / B) ds

/-- Value of a little-endian digit list in base `B`. -/
def digitsVal (B : Nat) : List Nat → Nat
| [] => 0
| d :: ds => d + B * digitsVal B ds

/-- Big-endian value: the fold `v * base + b` over the list. -/
def byteVal (base : Nat) (l : List Nat) : Nat :=
  l.foldl (fun v b => v * base + b) 0

/-- The encoders' accumulation fold: little-endian base-`B` digits of the
big-endian base-256 input. -/
def encodeBigDigits (B : Nat) (input : List Nat) : List Nat :=
  input.foldl (fun acc byte => mulAddDigits B 256 byte acc) []

/-- The decoders' accumulation fold (big-endian byte vector, walked from
the little end exactly as the Rust code does). -/
def decodeBigBytes (B : Nat) (digits : List Nat) : List Nat :=
  digits.foldl (fun acc d => (mulAddDigits 256 B d acc.reverse).reverse) []

/-- Canonical little-endian digit vector: all digits in range and no
trailing zero (the most significant digit, the list's last, is nonzero). -/
def CanonDigits (B : Nat) (l : List Nat) : Prop :=
  (∀ d ∈ l, d < B) ∧ ∀ d, l.getLast? = some d → d ≠ 0

theorem pushCarry_eq_nil (B c : Nat) (hB : 2 ≤ B) : pushCarry B c = [] ↔ c = 0 := by
  rw [pushCarry_unfold]
  split
  · rename_i h
    rcases h with h | h
    · simp [h]
    · omega
  · rename_i h
    push_neg at h
    simp [h.1]

theorem pushCarry_val (B : Nat) (hB : 2 ≤ B) : ∀ c, digitsVal B (pushCarry B c) = c := by
  intro c
  induction c using Nat.strong_induction_on with
  | _ c ih =>
    rw [pushCarry_unfold]
    split
    · rename_i h
      rcases h with h | h
      · simp [h, digitsVal]
      · omega
    · rename_i h
      push_neg at h
      simp only [digitsVal]
      rw [ih (c / B) (Nat.div_lt_self (Nat.pos_of_ne_zero h.1) (by omega))]
      exact Nat.mod_add_div c B

theorem pushCarry_mem (B : Nat) (hB : 2 ≤ B) : ∀ c, ∀ d ∈ pushCarry B c, d < B := by
  intro c
  induction c using Nat.strong_induction_on with
  | _ c ih =>
    rw [pushCarry_unfold]
    split
    · simp
    · rename_i h
      push_neg at h
      intro d hd
      rcases List.mem_cons.1 hd with rfl | hd
      · exact Nat.mod_lt _ (by omega)
      · exact ih (c / B) (Nat.div_lt_self (Nat.pos_of_ne_zero h.1) (by omega)) d hd

theorem pushCarry_last (B : Nat) (hB : 2 ≤ B) :
    ∀ c, ∀ d, (pushCarry B c).getLast? = some d → d ≠ 0 := by
  intro c
  induction c using Nat.strong_induction_on with
  | _ c ih =>
    rw [pushCarry_unfold]
    split
    · simp
    · rename_i h
      push_neg at h
      intro d hd
      rcases hpc : pushCarry B (c / B) with _ | ⟨x, xs⟩
      · rw [hpc, List.getLast?_singleton] at hd
        have hdiv : c / B = 0 := (pushCarry_eq_nil B _ hB).1 hpc
        have hcB : c < B := (Nat.div_eq_zero_iff (by omega)).1 hdiv
        have : c % B = c := Nat.mod_eq_of_lt hcB
        simp only [Option.some.injEq] at hd
        omega
      · rw [hpc, List.getLast?_cons_cons] at hd
        exact ih (c / B) (Nat.div_lt_self (Nat.pos_of_ne_zero h.1) (by omega)) d
          (by rw [hpc]; exact hd)

theorem mulAddDigits_val (B M : Nat) (hB : 2 ≤ B) (l : List Nat) :
    ∀ c, digitsVal B (mulAddDigits B M c l) = c + M * digitsVal B l := by
  induction l with
  | nil => intro c; simp [mulAddDigits, digitsVal, pushCarry_val B hB c]
  | cons d ds ih =>
    intro c
    simp only [mulAddDigits, digitsVal, ih]
    calc (c + d * M) % B + B * ((c + d * M) / B + M * digitsVal B ds)
        = ((c + d * M) % B + B * ((c + d * M) / B)) + B * (M * digitsVal B ds) := by ring
      _ = (c + d * M) + B * (M * digitsVal B ds) := by rw [Nat.mod_add_div]
      _ = c + M * (d + B * digitsVal B ds) := by ring

theorem mulAddDigits_mem (B M : Nat) (hB : 2 ≤ B) (l : List Nat) :
    ∀ c, ∀ d ∈ mulAddDigits B M c l, d < B := by
  induction l with
  | nil => intro c; exact pushCarry_mem B hB c
  | cons d0 ds ih =>
    intro c d hd
    rcases List.mem_cons.1 hd with rfl | hd
    · exact Nat.mod_lt _ (by omega)
    · exact ih _ d hd

theorem mulAddDigits_ne_nil (B M c : Nat) (d0 : Nat) (ds : List Nat) :
    mulAddDigits B M c (d0 :: ds) ≠ [] := by
  simp [mulAddDigits]

theorem mulAddDigits_last (B M : Nat) (hB : 2 ≤ B) (hM : 1 ≤ M) (l : List Nat)
    (hl : ∀ d, l.getLast? = some d → d ≠ 0) :
    ∀ c, ∀ d, (mulAddDigits B M c l).getLast? = some d → d ≠ 0 := by
  induction l with
  | nil => intro c; exact pushCarry_last B hB c
  | cons d0 ds ih =>
    intro c d hd
    match ds, hl with
    | [], hl =>
      have hd0 : d0 ≠ 0 := hl d0 rfl
      simp only [mulAddDigits] at hd
      rcases hpc : pushCarry B ((c + d0 * M) / B) with _ | ⟨x, xs⟩
      · rw [hpc, List.getLast?_singleton] at hd
        have hdiv : (c + d0 * M) / B = 0 := (pushCarry_eq_nil B _ hB).1 hpc
        have hlt : c + d0 * M < B := (Nat.div_eq_zero_iff (by omega)).1 hdiv
        have hmod : (c + d0 * M) % B = c + d0 * M := Nat.mod_eq_of_lt hlt
        have : 1 ≤ d0 * M := Nat.one_le_iff_ne_zero.2 (by positivity)
        simp only [Option.some.injEq] at hd
        omega
      · rw [hpc, List.getLast?_cons_cons] at hd
        exact pushCarry_last B hB _ d (by rw [hpc]; exact hd)
    | e :: es, hl =>
      have htail : ∀ x, (e :: es).getLast? = some x → x ≠ 0 := by
        intro x hx
        exact hl x (by rw [List.getLast?_cons_cons]; exact hx)
      simp only [mulAddDigits] at hd
      rw [List.getLast?_cons_cons] at hd
      exact ih htail _ d hd

theorem canonDigits_nil (B : Nat) : CanonDigits B [] := by
  constructor
  · simp
  · simp

theorem canonDigits_tail (B : Nat) (d : Nat) (ds : List Nat)
    (h : CanonDigits B (d :: ds)) : CanonDigits B ds := by
  obtain ⟨h1, h2⟩ := h
  constructor
  · intro x hx; exact h1 x (List.mem_cons_of_mem _ hx)
  · intro x hx
    match ds, hx with
    | e :: es, hx => exact h2 x (by rw [List.getLast?_cons_cons]; exact hx)

theorem canonDigits_val_zero (B : Nat) (hB : 2 ≤ B) :
    ∀ l : List Nat, CanonDigits B l → digitsVal B l = 0 → l = [] := by
  intro l
  induction l with
  | nil => intro _ _; rfl
  | cons d ds ih =>
    intro hc hv
    simp only [digitsVal] at hv
    have hd : d = 0 := by omega
    have hds : digitsVal B ds = 0 := by
      rcases Nat.eq_zero_of_add_eq_zero_left hv with h
      exact Nat.eq_zero_of_mul_eq_zero h |>.resolve_left (by omega)
    have := ih (canonDigits_tail B d ds hc) hds
    subst this
    exact absurd rfl (by subst hd; exact hc.2 0 rfl)

theorem canonDigits_val_inj (B : Nat) (hB : 2 ≤ B) :
    ∀ l1 l2 : List Nat, CanonDigits B l1 → CanonDigits B l2 →
      digitsVal B l1 = digitsVal B l2 → l1 = l2 := by
  intro l1
  induction l1 with
  | nil =>
    intro l2 _ hc2 hv
    exact (canonDigits_val_zero B hB l2 hc2 (by simpa [digitsVal] using hv.symm)).symm
  | cons d ds ih =>
    intro l2 hc1 hc2 hv
    match l2 with
    | [] =>
      exact absurd (canonDigits_val_zero B hB _ hc1 (by simpa [digitsVal] using hv)) (by simp)
    | e :: es =>
      simp only [digitsVal] at hv
      have hdB : d < B := hc1.1 d (by simp)
      have heB : e < B := hc2.1 e (by simp)
      have hde : d = e := by
        have h1 : (d + B * digitsVal B ds) % B = d % B := by
          rw [Nat.add_mul_mod_self_left]
        have h2 : (e + B * digitsVal B es) % B = e % B := by
          rw [Nat.add_mul_mod_self_left]
        rw [hv] at h1
        rw [h2] at h1
        rw [Nat.mod_eq_of_lt heB, Nat.mod_eq_of_lt hdB] at h1
        omega
      subst hde
      have hvs : digitsVal B ds = digitsVal B es := by
        have : B * digitsVal B ds = B * digitsVal B es := by omega
        exact Nat.eq_of_mul_eq_mul_left (by omega) this
      rw [ih es (canonDigits_tail B _ _ hc1) (canonDigits_tail B _ _ hc2) hvs]

theorem encodeBigDigits_val (B : Nat) (hB : 2 ≤ B) (input : List Nat) :
    digitsVal B (encodeBigDigits B input) = byteVal 256 input := by
  have key : ∀ (l : List Nat) (acc : List Nat),
      digitsVal B (l.foldl (fun acc byte => mulAddDigits B 256 byte acc) acc) =
        l.foldl (fun v b => v * 256 + b) (digitsVal B acc) := by
    intro l
    induction l with
    | nil => intro acc; rfl
    | cons b bs ih =>
      intro acc
      simp only [List.foldl_cons, ih, mulAddDigits_val B 256 hB acc b]
      congr 1
      ring
  simpa [encodeBigDigits, byteVal, digitsVal] using key input []

theorem encodeBigDigits_canon (B : Nat) (hB : 2 ≤ B) (input : List Nat) :
    CanonDigits B (encodeBigDigits B input) := by
  have key : ∀ (l : List Nat) (acc : List Nat), CanonDigits B acc →
      CanonDigits B (l.foldl (fun acc byte => mulAddDigits B 256 byte acc) acc) := by
    intro l
    induction l with
    | nil => intro acc h; exact h
    | cons b bs ih =>
      intro acc h
      refine ih _ ⟨mulAddDigits_mem B 256 hB acc b, ?_⟩
      exact mulAddDigits_last B 256 hB (by omega) acc h.2 b
  exact key input [] (canonDigits_nil B)

/-- The decode fold is the little-endian fold, reversed at the end. -/
theorem decodeBigBytes_eq_rev (B : Nat) (digits : List Nat) :
    decodeBigBytes B digits =
      (digits.foldl (fun acc d => mulAddDigits 256 B d acc) []).reverse := by
  have key : ∀ (l : List Nat) (acc : List Nat),
      l.foldl (fun acc d => (mulAddDigits 256 B d acc.reverse).reverse) acc =
        (l.foldl (fun acc d => mulAddDigits 256 B d acc) acc.reverse).reverse := by
    intro l
    induction l with
    | nil => intro acc; simp
    | cons d ds ih =>
      intro acc
      simp only [List.foldl_cons, ih, List.reverse_reverse]
  simpa [decodeBigBytes] using key digits []

theorem decodeLE_val (B : Nat) (hB : 1 ≤ B) (digits : List Nat) :
    digitsVal 256 (digits.foldl (fun acc d => mulAddDigits 256 B d acc) []) =
      digits.foldl (fun v d => v * B + d) 0 := by
  have key : ∀ (l : List Nat) (acc : List Nat),
      digitsVal 256 (l.foldl (fun acc d => mulAddDigits 256 B d acc) acc) =
        l.foldl (fun v d => v * B + d) (digitsVal 256 acc) := by
    intro l
    induction l with
    | nil => intro acc; rfl
    | cons d ds ih =>
      intro acc
      simp only [List.foldl_cons, ih, mulAddDigits_val 256 B (by omega) acc d]
      congr 1
      ring
  simpa [digitsVal] using key digits []

theorem decodeLE_canon (B : Nat) (hB : 1 ≤ B) (digits : List Nat) :
    CanonDigits 256 (digits.foldl (fun acc d => mulAddDigits 256 B d acc) []) := by
  have key : ∀ (l : List Nat) (acc : List Nat), CanonDigits 256 acc →
      CanonDigits 256 (l.foldl (fun acc d => mulAddDigits 256 B d acc) acc) := by
    intro l
    induction l with
    | nil => intro acc h; exact h
    | cons d ds ih =>
      intro acc h
      refine ih _ ⟨mulAddDigits_mem 256 B (by omega) acc d, ?_⟩
      exact mulAddDigits_last 256 B (by omega) hB acc h.2 d
  exact key digits [] (canonDigits_nil 256)

/-- Big-endian fold of a reversed list computes the little-endian value. -/
theorem foldl_reverse_digitsVal (B : Nat) (l : List Nat) :
    l.reverse.foldl (fun v d => v * B + d) 0 = digitsVal B l := by
  induction l with
  | nil => rfl
  | cons d ds ih =>
    simp only [List.reverse_cons, List.foldl_append, List.foldl_cons, List.foldl_nil, ih,
      digitsVal]
    ring

/-- A zero prefix contributes nothing to the big-endian fold. -/
theorem foldl_zero_prefix (B k : Nat) (l : List Nat) :
    (List.replicate k 0 ++ l).foldl (fun v d => v * B + d) 0 =
      l.foldl (fun v d => v * B + d) 0 := by
  induction k with
  | zero => rfl
  | succ n ih => simpa [List.replicate_succ] using ih

/-- A zero prefix contributes nothing to the encoder's digit fold. -/
theorem encodeBigDigits_zero_prefix (B k : Nat) (l : List Nat) :
    encodeBigDigits B (List.replicate k 0 ++ l) = encodeBigDigits B l := by
  have step : mulAddDigits B 256 0 ([] : List Nat) = [] := by
    rw [mulAddDigits, pushCarry_unfold]
    simp
  induction k with
  | zero => rfl
  | succ n ih =>
    simpa [List.replicate_succ, encodeBigDigits, step] using ih

theorem byteVal_pos (b : Nat) (bs : List Nat) (hb : b ≠ 0) :
    0 < byteVal 256 (b :: bs) := by
  have mono : ∀ (l : List Nat) (v : Nat), v ≤ l.foldl (fun v d => v * 256 + d) v := by
    intro l
    induction l with
    | nil => intro v; exact Nat.le_refl v
    | cons d ds ih =>
      intro v
      calc v ≤ v * 256 + d := by nlinarith
        _ ≤ ds.foldl (fun v d => v * 256 + d) (v * 256 + d) := ih _
  have : b ≤ (bs.foldl (fun v d => v * 256 + d) b) := mono bs b
  simpa [byteVal] using by omega

/-- Rust `alphabet[d] as char` (byte indexing into an ASCII alphabet);
out-of-range gives `'?'`, unreachable because digits are `< B`. -/
def alphaChar (alpha : List Char) (d : Nat) : Char := alpha.getD d '?'

/-- The shared `for (pos, ch) in s.chars().enumerate() { if
!alphabet.contains(ch) { return Err(InvalidCharacter) } }` validation
loop, at starting position `pos`. -/
def firstNotIn : List Char → List Char → Nat → Option (Nat × Char)
| [], _, _ => none
| c :: cs, alpha, pos =>
    if alpha.contains c then firstNotIn cs alpha (pos + 1) else some (pos, c)

/-- The positional encoder shared (with the radix and alphabet
substituted) by src/codec/base36.rs `encode_base36`, base37.rs
`encode_base37`, base62.rs `encode_base62`, and (per spec §4.2) the
external `bs58` encoder: bignum fold, then one zero digit per leading
zero byte, then render most-significant-first. -/
def encode_positional (B : Nat) (alpha : List Char) (input : List Nat) : List Char :=
  if input.isEmpty then []
  else
    let num := encodeBigDigits B input ++
      List.replicate ((input.takeWhile (fun b => b == 0)).length) 0
    num.reverse.map (fun d => alphaChar alpha d)

/-- src/codec/base36.rs `LOWER_ALPHABET`. -/
def LOWER_ALPHABET : List Char := "0123456789abcdefghijklmnopqrstuvwxyz".data

/-- src/codec/base36.rs `UPPER_ALPHABET`. -/
def UPPER_ALPHABET : List Char := "0123456789ABCDEFGHIJKLMNOPQRSTUVWXYZ".data

/-- src/codec/base36.rs `encode_base36`. -/
def encode_base36 (input : List Nat) (alphabet : List Char) : List Char :=
  encode_positional 36 alphabet input

/-- The digit extraction inside the fold of src/codec/base36.rs
`decode_base36` (ASCII digit / lowercase / uppercase arithmetic). -/
def base36DigitVal (ch : Char) : Nat :=
  if ch.isDigit then ch.toNat - 48
  else if ch.isLower then ch.toNat - 97 + 10
  else ch.toNat - 65 + 10

/-- src/codec/base36.rs `decode_base36`. -/
def decode_base36 (input : List Char) (mode : Mode) (is_lowercase : Bool) :
    Except MbaseError (List Nat) :=
  let cleaned := clean_for_mode input mode
  if cleaned.isEmpty then .ok []
  else
    let normalized := match mode with
      | .Strict => cleaned
      | .Lenient =>
          if is_lowercase then cleaned.map Char.toLower else cleaned.map Char.toUpper
    let alphabet := if is_lowercase then LOWER_ALPHABET else UPPER_ALPHABET
    match firstNotIn normalized alphabet 0 with
    | some (pos, ch) => .error (.InvalidCharacter ch pos)
    | none =>
        let leadingZeros := (normalized.takeWhile (fun c => c == '0')).length
        .ok (List.replicate leadingZeros 0 ++
          decodeBigBytes 36 (normalized.map base36DigitVal))

/-- src/codec/base37.rs `ALPHABET` (base36 upper plus a trailing space). -/
def BASE37_ALPHABET : List Char := "0123456789ABCDEFGHIJKLMNOPQRSTUVWXYZ ".data

/-- src/codec/base37.rs `encode_base37`. -/
def encode_base37 (input : List Nat) : List Char :=
  encode_positional 37 BASE37_ALPHABET input

/-- The digit extraction of src/codec/base37.rs `decode_base37`
(`ALPHABET.chars().position(..).unwrap()`). -/
def base37DigitVal (ch : Char) : Nat :=
  BASE37_ALPHABET.findIdx (fun x => x == ch)

/-- src/codec/base37.rs `decode_base37`.  Note both modes uppercase the
input, and Lenient keeps `' '` while stripping all other whitespace. -/
def decode_base37 (input : List Char) (mode : Mode) : Except MbaseError (List Nat) :=
  let cleaned := if mode == Mode.Lenient then
      input.filter (fun c => !(isRustWhitespace c) || c == ' ')
    else input
  if cleaned.isEmpty then .ok []
  else
    let normalized := cleaned.map Char.toUpper
    match firstNotIn normalized BASE37_ALPHABET 0 with
    | some (pos, ch) => .error (.InvalidCharacter ch pos)
    | none =>
        let leadingZeros := (normalized.takeWhile (fun c => c == '0')).length
        .ok (List.replicate leadingZeros 0 ++
          decodeBigBytes 37 (normalized.map base37DigitVal))

/-- src/codec/base62.rs `ALPHABET`. -/
def BASE62_ALPHABET : List Char :=
  "0123456789ABCDEFGHIJKLMNOPQRSTUVWXYZabcdefghijklmnopqrstuvwxyz".data

/-- src/codec/base62.rs `encode_base62`. -/
def encode_base62 (input : List Nat) : List Char :=
  encode_positional 62 BASE62_ALPHABET input

/-- The digit extraction of src/codec/base62.rs `decode_base62`. -/
def base62DigitVal (ch : Char) : Nat :=
  if ch.isDigit then ch.toNat - 48
  else if ch.isUpper then ch.toNat - 65 + 10
  else ch.toNat - 97 + 36

/-- src/codec/base62.rs `decode_base62` (case sensitive, no
normalization step). -/
def decode_base62 (input : List Char) (mode : Mode) : Except MbaseError (List Nat) :=
  let cleaned := clean_for_mode input mode
  if cleaned.isEmpty then .ok []
  else
    match firstNotIn cleaned BASE62_ALPHABET 0 with
    | some (pos, ch) => .error (.InvalidCharacter ch pos)
    | none =>
        let leadingZeros := (cleaned.takeWhile (fun c => c == '0')).length
        .ok (List.replicate leadingZeros 0 ++
          decodeBigBytes 62 (cleaned.map base62DigitVal))

/-- src/codec/base58.rs `BTC_ALPHABET`. -/
def BTC_ALPHABET : List Char :=
  "123456789ABCDEFGHJKLMNPQRSTUVWXYZabcdefghijkmnopqrstuvwxyz".data

/-- Modelled from the spec: the external `bs58` crate's encoder invoked
by src/codec/base58.rs (`bs58::encode(input).with_alphabet(BITCOIN)`),
which spec §4.2 specifies as the same positional shape over the 58-symbol
alphabet (leading zero bytes rendered as leading `'1'` digits). -/
def bs58_encode (input : List Nat) : List Char :=
  encode_positional 58 BTC_ALPHABET input

/-- Modelled from the spec: the external `bs58` crate's decoder invoked
by src/codec/base58.rs, specified by §4.2 as the positional decode over
the Bitcoin alphabet; it reports `InvalidCharacter{character, index}` at
the first out-of-alphabet symbol, which src/codec/base58.rs maps onto
`MbaseError::InvalidCharacter` unchanged. -/
def bs58_decode (input : List Char) : Except MbaseError (List Nat) :=
  match firstNotIn input BTC_ALPHABET 0 with
  | some (pos, ch) => .error (.InvalidCharacter ch pos)
  | none =>
      let leadingZeros := (input.takeWhile (fun c => c == '1')).length
      .ok (List.replicate leadingZeros 0 ++
        decodeBigBytes 58 (input.map (fun ch => BTC_ALPHABET.findIdx (fun x => x == ch))))

/-- src/codec/base58.rs `Base58Btc::decode` (normalize, then the crate
decoder; the crate's only error on arbitrary text is `InvalidCharacter`,
kept unchanged by the `map_err`). -/
def base58btc_decode (input : List Char) (mode : Mode) : Except MbaseError (List Nat) :=
  bs58_decode (clean_for_mode input mode)

/- ----------------------------------------------------------------
Round-trip core for the positional family
---------------------------------------------------------------- -/

theorem mem_takeWhile_pred {α : Type} (p : α → Bool) (l : List α) :
    ∀ x ∈ l.takeWhile p, p x = true := by
  induction l with
  | nil => simp [List.takeWhile]
  | cons a as ih =>
    intro x hx
    simp only [List.takeWhile] at hx
    rcases ha : p a with _ | _
    · rw [ha] at hx; simp at hx
    · rw [ha] at hx
      rcases List.mem_cons.1 hx with rfl | hx
      · exact ha
      · exact ih x hx

theorem takeWhile_replicate_append {α : Type} (p : α → Bool) (a : α) (ha : p a = true)
    (k : Nat) (l : List α) :
    (List.replicate k a ++ l).takeWhile p = List.replicate k a ++ l.takeWhile p := by
  induction k with
  | zero => simp
  | succ n ih => simp [List.replicate_succ, List.takeWhile, ha, ih]

theorem takeWhile_cons_neg {α : Type} (p : α → Bool) (a : α) (ha : p a = false)
    (l : List α) : (a :: l).takeWhile p = [] := by
  simp [List.takeWhile, ha]

theorem head?_dropWhile_not {α : Type} (p : α → Bool) (l : List α) :
    ∀ x, (l.dropWhile p).head? = some x → p x = false := by
  induction l with
  | nil => simp [List.dropWhile]
  | cons a as ih =>
    intro x hx
    simp only [List.dropWhile] at hx
    rcases ha : p a with _ | _
    · rw [ha] at hx
      simp only [List.head?, Option.some.injEq] at hx
      subst hx; exact ha
    · rw [ha] at hx
      exact ih x hx

theorem firstNotIn_eq_none (s alpha : List Char) (h : ∀ c ∈ s, alpha.contains c = true) :
    ∀ pos, firstNotIn s alpha pos = none := by
  induction s with
  | nil => intro pos; rfl
  | cons c cs ih =>
    intro pos
    simp only [firstNotIn, h c (by simp), if_true]
    exact ih (fun x hx => h x (List.mem_cons_of_mem _ hx)) (pos + 1)

theorem decodeLE_zeros (B k : Nat) :
    (List.replicate k 0).foldl (fun acc d => mulAddDigits 256 B d acc) [] = [] := by
  have step : mulAddDigits 256 B 0 ([] : List Nat) = [] := by
    rw [mulAddDigits, pushCarry_unfold]; simp
  induction k with
  | zero => rfl
  | succ n ih => simpa [List.replicate_succ, step] using ih

/-- The leading zero bytes of the input are literally a replicate. -/
theorem takeWhile_zero_replicate (input : List Nat) :
    input.takeWhile (fun b => b == 0) =
      List.replicate (input.takeWhile (fun b => b == 0)).length 0 := by
  rw [List.eq_replicate_iff]
  exact ⟨rfl, fun b hb => by simpa using mem_takeWhile_pred _ input b hb⟩

/-- Shape of the positional encoder's output on nonempty input: one zero
symbol per leading zero byte, then the canonical digits rendered
most-significant-first. -/
theorem encode_positional_shape (B : Nat) (alpha : List Char) (input : List Nat)
    (hinput : input ≠ []) :
    encode_positional B alpha input =
      List.replicate (input.takeWhile (fun b => b == 0)).length (alphaChar alpha 0) ++
        (encodeBigDigits B input).reverse.map (fun d => alphaChar alpha d) := by
  cases input with
  | nil => exact absurd rfl hinput
  | cons a l =>
    show ((encodeBigDigits B (a :: l) ++
        List.replicate (((a :: l).takeWhile (fun b => b == 0)).length) 0).reverse.map
          (fun d => alphaChar alpha d)) = _
    rw [List.reverse_append, List.reverse_replicate, List.map_append, List.map_replicate]

/-- Core round-trip for the positional family: counting the leading zero
symbols of the encoder's output recovers the leading-zero-byte count, and
the decoder pipeline (zero bytes ++ bignum-refold of the digit values)
recovers the input exactly. -/
theorem positional_roundtrip_core (B : Nat) (hB : 2 ≤ B)
    (alpha : List Char) (digitOf : Char → Nat)
    (hdig : ∀ d : Nat, d < B → digitOf (alphaChar alpha d) = d)
    (hinj0 : ∀ d : Nat, d < B → ((alphaChar alpha d == alphaChar alpha 0)) = (d == 0))
    (hmem : ∀ d : Nat, d < B → alpha.contains (alphaChar alpha d) = true)
    (input : List Nat) (hin : ∀ b ∈ input, b < 256) :
    ((encode_positional B alpha input).takeWhile (fun c => c == alphaChar alpha 0)).length
        = (input.takeWhile (fun b => b == 0)).length
    ∧ List.replicate ((encode_positional B alpha input).takeWhile
          (fun c => c == alphaChar alpha 0)).length 0
        ++ decodeBigBytes B ((encode_positional B alpha input).map digitOf) = input
    ∧ (∀ c ∈ encode_positional B alpha input, alpha.contains c = true)
    ∧ (input ≠ [] → encode_positional B alpha input ≠ []) := by
  classical
  have hB0 : 0 < B := by omega
  by_cases hinput : input = []
  · subst hinput
    exact ⟨rfl, rfl, by intro c hc; simp [encode_positional] at hc, fun h => absurd rfl h⟩
  · have hshape := encode_positional_shape B alpha input hinput
    have hcanon := encodeBigDigits_canon B hB input
    have hval := encodeBigDigits_val B hB input
    have hsplit : List.replicate (input.takeWhile (fun b => b == 0)).length 0 ++
        input.dropWhile (fun b => b == 0) = input := by
      rw [← takeWhile_zero_replicate input]
      exact List.takeWhile_append_dropWhile _ input
    have hvrest : byteVal 256 input =
        byteVal 256 (input.dropWhile (fun b => b == 0)) := by
      conv_lhs => rw [← hsplit]
      rw [byteVal, byteVal, foldl_zero_prefix]
    have hresthead : ∀ r, (input.dropWhile (fun b => b == 0)).head? = some r → r ≠ 0 := by
      intro r hr
      have := head?_dropWhile_not (fun b => b == 0) input r hr
      simpa using this
    rcases hrev : (encodeBigDigits B input).reverse with _ | ⟨gl, rs⟩
    · -- the bignum part is empty: the input is all zero bytes
      have hnumnil : encodeBigDigits B input = [] := by
        have := congrArg List.reverse hrev
        simpa using this
      have hv0 : byteVal 256 input = 0 := by
        rw [← hval, hnumnil]; rfl
      have hrestnil : input.dropWhile (fun b => b == 0) = [] := by
        rcases hr : input.dropWhile (fun b => b == 0) with _ | ⟨r, rr⟩
        · rfl
        · exfalso
          have hrne : r ≠ 0 := hresthead r (by rw [hr]; rfl)
          have hpos : 0 < byteVal 256 (r :: rr) := byteVal_pos r rr hrne
          rw [hr] at hvrest
          omega
      have hinputrep : input =
          List.replicate (input.takeWhile (fun b => b == 0)).length 0 := by
        conv_lhs => rw [← hsplit]
        rw [hrestnil, List.append_nil]
      have hkpos : (input.takeWhile (fun b => b == 0)).length ≠ 0 := by
        intro h0
        rw [h0] at hinputrep
        exact hinput (by simpa using hinputrep)
      have hs : encode_positional B alpha input =
          List.replicate (input.takeWhile (fun b => b == 0)).length (alphaChar alpha 0) := by
        rw [hshape, hnumnil]
        simp
      have htwz : (encode_positional B alpha input).takeWhile
          (fun c => c == alphaChar alpha 0) = encode_positional B alpha input := by
        rw [hs]
        have := takeWhile_replicate_append (fun c => c == alphaChar alpha 0)
          (alphaChar alpha 0) (by simp) (input.takeWhile (fun b => b == 0)).length
          ([] : List Char)
        simpa using this
      have hlen : ((encode_positional B alpha input).takeWhile
          (fun c => c == alphaChar alpha 0)).length =
          (input.takeWhile (fun b => b == 0)).length := by
        rw [htwz, hs, List.length_replicate]
      refine ⟨hlen, ?_, ?_, ?_⟩
      · rw [hlen, hs, List.map_replicate, hdig 0 hB0, decodeBigBytes_eq_rev, decodeLE_zeros]
        simpa using hinputrep.symm
      · rw [hs]
        intro c hc
        rw [List.eq_of_mem_replicate hc]
        exact hmem 0 hB0
      · intro _
        rw [hs]
        simp [hkpos]
    · -- nonzero bignum part: the most significant digit is nonzero
      have hgl : (encodeBigDigits B input).getLast? = some gl := by
        rw [← List.head?_reverse, hrev]; rfl
      have hglne : gl ≠ 0 := hcanon.2 gl hgl
      have hglB : gl < B := by
        refine hcanon.1 gl ?_
        have : gl ∈ (encodeBigDigits B input).reverse := by rw [hrev]; simp
        rwa [List.mem_reverse] at this
      have hheadne : ((alphaChar alpha gl == alphaChar alpha 0)) = false := by
        rw [hinj0 gl hglB]
        simpa using hglne
    -- leading zero symbol count
      have hlen : ((encode_positional B alpha input).takeWhile
          (fun c => c == alphaChar alpha 0)).length =
          (input.takeWhile (fun b => b == 0)).length := by
        rw [hshape, hrev,
          takeWhile_replicate_append (fun c => c == alphaChar alpha 0)
            (alphaChar alpha 0) (by simp) _ _,
          List.map_cons,
          takeWhile_cons_neg (fun c => c == alphaChar alpha 0) (alphaChar alpha gl) hheadne,
          List.append_nil, List.length_replicate]
      refine ⟨hlen, ?_, ?_, ?_⟩
      · rw [hlen]
        have hmapdig : (encode_positional B alpha input).map digitOf =
            List.replicate (input.takeWhile (fun b => b == 0)).length 0 ++
              (encodeBigDigits B input).reverse := by
          rw [hshape, List.map_append, List.map_replicate, hdig 0 hB0, List.map_map]
          congr 1
          have hcongr : ∀ d ∈ (encodeBigDigits B input).reverse,
              (digitOf ∘ fun d => alphaChar alpha d) d = d := by
            intro d hd
            have hdB : d < B := hcanon.1 d (by rwa [List.mem_reverse] at hd)
            simpa using hdig d hdB
          rw [List.map_congr_left hcongr]
          exact List.map_id _
        rw [hmapdig, decodeBigBytes_eq_rev, List.foldl_append, decodeLE_zeros]
        have hdval : digitsVal 256 ((encodeBigDigits B input).reverse.foldl
            (fun acc d => mulAddDigits 256 B d acc) []) =
            digitsVal 256 (input.dropWhile (fun b => b == 0)).reverse := by
          rw [decodeLE_val B (by omega) (encodeBigDigits B input).reverse,
            foldl_reverse_digitsVal B (encodeBigDigits B input), hval, hvrest]
          have h2 := foldl_reverse_digitsVal 256 (input.dropWhile (fun b => b == 0)).reverse
          rw [List.reverse_reverse] at h2
          rw [← h2]
          rfl
        have hcanonLE := decodeLE_canon B (by omega) (encodeBigDigits B input).reverse
        have hcanonrest : CanonDigits 256 (input.dropWhile (fun b => b == 0)).reverse := by
          constructor
          · intro d hd
            rw [List.mem_reverse] at hd
            refine hin d ?_
            rw [← hsplit]
            exact List.mem_append_right _ hd
          · intro d hd
            rw [List.getLast?_reverse] at hd
            exact hresthead d hd
        have heq := canonDigits_val_inj 256 (by omega) _ _ hcanonLE hcanonrest hdval
        rw [heq, List.reverse_reverse, hsplit]
      · rw [hshape]
        intro c hc
        rcases List.mem_append.1 hc with hc | hc
        · rw [List.eq_of_mem_replicate hc]
          exact hmem 0 hB0
        · rcases List.mem_map.1 hc with ⟨d, hd, rfl⟩
          exact hmem d (hcanon.1 d (by rwa [List.mem_reverse] at hd))
      · intro _
        rw [hshape, hrev]
        simp

/- ----------------------------------------------------------------
Per-codec round-trips of the positional family
---------------------------------------------------------------- -/

theorem base36lower_tables :
    (∀ d : Nat, d < 36 → base36DigitVal (alphaChar LOWER_ALPHABET d) = d) ∧
    (∀ d : Nat, d < 36 →
      ((alphaChar LOWER_ALPHABET d == alphaChar LOWER_ALPHABET 0)) = (d == 0)) ∧
    (∀ d : Nat, d < 36 → LOWER_ALPHABET.contains (alphaChar LOWER_ALPHABET d) = true) := by
  decide

theorem base36upper_tables :
    (∀ d : Nat, d < 36 → base36DigitVal (alphaChar UPPER_ALPHABET d) = d) ∧
    (∀ d : Nat, d < 36 →
      ((alphaChar UPPER_ALPHABET d == alphaChar UPPER_ALPHABET 0)) = (d == 0)) ∧
    (∀ d : Nat, d < 36 → UPPER_ALPHABET.contains (alphaChar UPPER_ALPHABET d) = true) := by
  decide

theorem base37_tables :
    (∀ d : Nat, d < 37 → base37DigitVal (alphaChar BASE37_ALPHABET d) = d) ∧
    (∀ d : Nat, d < 37 →
      ((alphaChar BASE37_ALPHABET d == alphaChar BASE37_ALPHABET 0)) = (d == 0)) ∧
    (∀ d : Nat, d < 37 → BASE37_ALPHABET.contains (alphaChar BASE37_ALPHABET d) = true) := by
  decide

theorem base62_tables :
    (∀ d : Nat, d < 62 → base62DigitVal (alphaChar BASE62_ALPHABET d) = d) ∧
    (∀ d : Nat, d < 62 →
      ((alphaChar BASE62_ALPHABET d == alphaChar BASE62_ALPHABET 0)) = (d == 0)) ∧
    (∀ d : Nat, d < 62 → BASE62_ALPHABET.contains (alphaChar BASE62_ALPHABET d) = true) := by
  decide

theorem base58_tables :
    (∀ d : Nat, d < 58 →
      BTC_ALPHABET.findIdx (fun x => x == alphaChar BTC_ALPHABET d) = d) ∧
    (∀ d : Nat, d < 58 →
      ((alphaChar BTC_ALPHABET d == alphaChar BTC_ALPHABET 0)) = (d == 0)) ∧
    (∀ d : Nat, d < 58 → BTC_ALPHABET.contains (alphaChar BTC_ALPHABET d) = true) := by
  decide

theorem decode_base36_strict_lower_formula (s : List Char) (hne : s ≠ [])
    (hvalid : ∀ c ∈ s, LOWER_ALPHABET.contains c = true) :
    decode_base36 s Mode.Strict true =
      .ok (List.replicate (s.takeWhile (fun c => c == '0')).length 0 ++
        decodeBigBytes 36 (s.map base36DigitVal)) := by
  have hE : s.isEmpty = false := by
    cases s with
    | nil => exact absurd rfl hne
    | cons a l => rfl
  simp only [decode_base36, clean_for_mode, hE, Bool.false_eq_true, if_false,
    firstNotIn_eq_none s LOWER_ALPHABET hvalid 0, if_true]

theorem decode_base36_strict_upper_formula (s : List Char) (hne : s ≠ [])
    (hvalid : ∀ c ∈ s, UPPER_ALPHABET.contains c = true) :
    decode_base36 s Mode.Strict false =
      .ok (List.replicate (s.takeWhile (fun c => c == '0')).length 0 ++
        decodeBigBytes 36 (s.map base36DigitVal)) := by
  have hE : s.isEmpty = false := by
    cases s with
    | nil => exact absurd rfl hne
    | cons a l => rfl
  simp only [decode_base36, clean_for_mode, hE, Bool.false_eq_true, if_false,
    firstNotIn_eq_none s UPPER_ALPHABET hvalid 0]

theorem decode_base62_strict_formula (s : List Char) (hne : s ≠ [])
    (hvalid : ∀ c ∈ s, BASE62_ALPHABET.contains c = true) :
    decode_base62 s Mode.Strict =
      .ok (List.replicate (s.takeWhile (fun c => c == '0')).length 0 ++
        decodeBigBytes 62 (s.map base62DigitVal)) := by
  have hE : s.isEmpty = false := by
    cases s with
    | nil => exact absurd rfl hne
    | cons a l => rfl
  simp only [decode_base62, clean_for_mode, hE, Bool.false_eq_true, if_false,
    firstNotIn_eq_none s BASE62_ALPHABET hvalid 0]

theorem bs58_decode_formula (s : List Char)
    (hvalid : ∀ c ∈ s, BTC_ALPHABET.contains c = true) :
    bs58_decode s =
      .ok (List.replicate (s.takeWhile (fun c => c == '1')).length 0 ++
        decodeBigBytes 58 (s.map (fun ch => BTC_ALPHABET.findIdx (fun x => x == ch)))) := by
  simp only [bs58_decode, firstNotIn_eq_none s BTC_ALPHABET hvalid 0]

theorem decode_base37_strict_formula (s : List Char) (hne : s ≠ [])
    (hvalid : ∀ c ∈ s, BASE37_ALPHABET.contains c = true) :
    decode_base37 s Mode.Strict =
      .ok (List.replicate (s.takeWhile (fun c => c == '0')).length 0 ++
        decodeBigBytes 37 (s.map base37DigitVal)) := by
  have hE : s.isEmpty = false := by
    cases s with
    | nil => exact absurd rfl hne
    | cons a l => rfl
  have hupfix : ∀ c ∈ BASE37_ALPHABET, Char.toUpper c = c := by decide
  have hup : s.map Char.toUpper = s := by
    have : ∀ c ∈ s, Char.toUpper c = c := by
      intro c hc
      have hmemc : c ∈ BASE37_ALPHABET := by
        have := hvalid c hc
        simpa using this
      exact hupfix c hmemc
    rw [List.map_congr_left this]
    exact List.map_id _
  have hmode : (Mode.Strict == Mode.Lenient) = false := by decide
  simp only [decode_base37, hmode, Bool.false_eq_true, if_false, hE, hup,
    firstNotIn_eq_none s BASE37_ALPHABET hvalid 0]

/-- Round-trip: src/codec/base36.rs `Base36Lower`
(`decode(encode(b), Strict) = b` for every byte string). -/
theorem base36lower_roundtrip (input : List Nat) (hin : ∀ b ∈ input, b < 256) :
    decode_base36 (encode_base36 input LOWER_ALPHABET) Mode.Strict true = .ok input := by
  obtain ⟨hd, hz, hm⟩ := base36lower_tables
  obtain ⟨hlen, hdec, hmemout, hne⟩ :=
    positional_roundtrip_core 36 (by omega) LOWER_ALPHABET base36DigitVal hd hz hm input hin
  by_cases hinput : input = []
  · subst hinput; rfl
  · have h0 : alphaChar LOWER_ALPHABET 0 = '0' := by decide
    rw [h0] at hdec
    rw [show encode_base36 input LOWER_ALPHABET = encode_positional 36 LOWER_ALPHABET input
      from rfl]
    rw [decode_base36_strict_lower_formula _ (hne hinput) hmemout, hdec]

/-- Round-trip: src/codec/base36.rs `Base36Upper`. -/
theorem base36upper_roundtrip (input : List Nat) (hin : ∀ b ∈ input, b < 256) :
    decode_base36 (encode_base36 input UPPER_ALPHABET) Mode.Strict false = .ok input := by
  obtain ⟨hd, hz, hm⟩ := base36upper_tables
  obtain ⟨hlen, hdec, hmemout, hne⟩ :=
    positional_roundtrip_core 36 (by omega) UPPER_ALPHABET base36DigitVal hd hz hm input hin
  by_cases hinput : input = []
  · subst hinput; rfl
  · have h0 : alphaChar UPPER_ALPHABET 0 = '0' := by decide
    rw [h0] at hdec
    rw [show encode_base36 input UPPER_ALPHABET = encode_positional 36 UPPER_ALPHABET input
      from rfl]
    rw [decode_base36_strict_upper_formula _ (hne hinput) hmemout, hdec]

/-- Round-trip: src/codec/base37.rs. -/
theorem base37_roundtrip (input : List Nat) (hin : ∀ b ∈ input, b < 256) :
    decode_base37 (encode_base37 input) Mode.Strict = .ok input := by
  obtain ⟨hd, hz, hm⟩ := base37_tables
  obtain ⟨hlen, hdec, hmemout, hne⟩ :=
    positional_roundtrip_core 37 (by omega) BASE37_ALPHABET base37DigitVal hd hz hm input hin
  by_cases hinput : input = []
  · subst hinput; rfl
  · have h0 : alphaChar BASE37_ALPHABET 0 = '0' := by decide
    rw [h0] at hdec
    rw [show encode_base37 input = encode_positional 37 BASE37_ALPHABET input from rfl]
    rw [decode_base37_strict_formula _ (hne hinput) hmemout, hdec]

/-- Round-trip: src/codec/base62.rs. -/
theorem base62_roundtrip (input : List Nat) (hin : ∀ b ∈ input, b < 256) :
    decode_base62 (encode_base62 input) Mode.Strict = .ok input := by
  obtain ⟨hd, hz, hm⟩ := base62_tables
  obtain ⟨hlen, hdec, hmemout, hne⟩ :=
    positional_roundtrip_core 62 (by omega) BASE62_ALPHABET base62DigitVal hd hz hm input hin
  by_cases hinput : input = []
  · subst hinput; rfl
  · have h0 : alphaChar BASE62_ALPHABET 0 = '0' := by decide
    rw [h0] at hdec
    rw [show encode_base62 input = encode_positional 62 BASE62_ALPHABET input from rfl]
    rw [decode_base62_strict_formula _ (hne hinput) hmemout, hdec]

/-- Round-trip of the (spec-modelled) `bs58` positional pair used by
src/codec/base58.rs. -/
theorem bs58_roundtrip (input : List Nat) (hin : ∀ b ∈ input, b < 256) :
    bs58_decode (bs58_encode input) = .ok input := by
  obtain ⟨hd, hz, hm⟩ := base58_tables
  obtain ⟨hlen, hdec, hmemout, hne⟩ :=
    positional_roundtrip_core 58 (by omega) BTC_ALPHABET
      (fun ch => BTC_ALPHABET.findIdx (fun x => x == ch)) hd hz hm input hin
  have h0 : alphaChar BTC_ALPHABET 0 = '1' := by decide
  rw [h0] at hdec
  rw [show bs58_encode input = encode_positional 58 BTC_ALPHABET input from rfl]
  rw [bs58_decode_formula _ hmemout, hdec]

/- ----------------------------------------------------------------
Base92 (src/codec/base92.rs) — long-division encoder
---------------------------------------------------------------- -/

/-- src/codec/base92.rs `BASE92_ALPHABET` (92 printable ASCII symbols,
`'!'` first). -/
def BASE92_ALPHABET : List Char :=
  "!#$%&'()*+,-./0123456789:;<=>?@ABCDEFGHIJKLMNOPQRSTUVWXYZ[]^_`abcdefghijklmnopqrstuvwxyz\x7b|\x7d~".data

/-- One pass of the `for byte in num.iter_mut()` long-division loop in
src/codec/base92.rs `Base92::encode`: divide the big-endian byte vector
by 92, threading the remainder left to right; returns the quotient
vector and the final remainder.  `u16` cannot overflow:
`temp ≤ 91*256+255`. -/
def divmod92 : List Nat → Nat → List Nat × Nat
| [], r => ([], r)
| b :: bs, r =>
    let temp := r * 256 + b
    let q := divmod92 bs (temp % 92)
    (temp / 92 :: q.1, q.2)

/-- The `while num.first() == Some(&0) && num.len() > 1` trimming loop. -/
def trimZeros : List Nat → List Nat
| 0 :: b :: bs => trimZeros (b :: bs)
| l => l

theorem divmod92_len (num : List Nat) : ∀ r, (divmod92 num r).1.length = num.length := by
  induction num with
  | nil => intro r; rfl
  | cons b bs ih => intro r; simp [divmod92, ih]

/-- The big-endian fold is affine in its initial accumulator. -/
theorem byteVal_foldl_init (base : Nat) (l : List Nat) : ∀ x : Nat,
    l.foldl (fun v b => v * base + b) x =
      x * base ^ l.length + l.foldl (fun v b => v * base + b) 0 := by
  induction l with
  | nil => intro x; simp
  | cons b bs ih =>
    intro x
    simp only [List.foldl_cons, List.length_cons]
    rw [ih (x * base + b), ih (0 * base + b)]
    ring

theorem divmod92_rem_lt (num : List Nat) : ∀ r, r < 92 → (divmod92 num r).2 < 92 := by
  induction num with
  | nil => intro r hr; exact hr
  | cons b bs ih =>
    intro r _
    exact ih ((r * 256 + b) % 92) (Nat.mod_lt _ (by omega))

theorem divmod92_val (num : List Nat) : ∀ r,
    92 * byteVal 256 (divmod92 num r).1 + (divmod92 num r).2 =
      r * 256 ^ num.length + byteVal 256 num := by
  induction num with
  | nil => intro r; simp [divmod92, byteVal]
  | cons b bs ih =>
    intro r
    have h1 := ih ((r * 256 + b) % 92)
    have hlen := divmod92_len bs ((r * 256 + b) % 92)
    have e1 : byteVal 256 ((r * 256 + b) / 92 :: (divmod92 bs ((r * 256 + b) % 92)).1) =
        (r * 256 + b) / 92 * 256 ^ bs.length +
          byteVal 256 (divmod92 bs ((r * 256 + b) % 92)).1 := by
      show List.foldl (fun v b => v * 256 + b) (0 * 256 + (r * 256 + b) / 92)
          (divmod92 bs ((r * 256 + b) % 92)).1 = _
      rw [Nat.zero_mul, Nat.zero_add, byteVal_foldl_init, hlen]
      rfl
    have e2 : byteVal 256 (b :: bs) = b * 256 ^ bs.length + byteVal 256 bs := by
      show List.foldl (fun v b => v * 256 + b) (0 * 256 + b) bs = _
      rw [Nat.zero_mul, Nat.zero_add, byteVal_foldl_init]
      rfl
    show 92 * byteVal 256 ((r * 256 + b) / 92 :: (divmod92 bs ((r * 256 + b) % 92)).1) +
        (divmod92 bs ((r * 256 + b) % 92)).2 = r * 256 ^ (b :: bs).length + byteVal 256 (b :: bs)
    rw [e1, e2]
    have hdm : (92 * ((r * 256 + b) / 92) + (r * 256 + b) % 92) * 256 ^ bs.length =
        (r * 256 + b) * 256 ^ bs.length := by
      rw [Nat.div_add_mod]
    have hlc : (b :: bs).length = bs.length + 1 := rfl
    rw [hlc, pow_succ]
    nlinarith [h1, hdm]

theorem trimZeros_val : ∀ l, byteVal 256 (trimZeros l) = byteVal 256 l := by
  intro l
  induction l with
  | nil => rfl
  | cons a bs ih =>
    rcases a with _ | n
    · rcases bs with _ | ⟨b, bs2⟩
      · rfl
      · rw [show trimZeros (0 :: b :: bs2) = trimZeros (b :: bs2) from rfl, ih]
        rfl
    · rcases bs with _ | ⟨b, bs2⟩
      · rfl
      · rfl

/-- `byteVal` vanishes exactly on all-zero byte strings. -/
theorem byteVal_eq_zero_iff (l : List Nat) :
    byteVal 256 l = 0 ↔ l.all (fun x => x == 0) = true := by
  induction l with
  | nil => simp [byteVal]
  | cons b bs ih =>
    constructor
    · intro h
      have hb : b = 0 := by
        by_contra hb
        have := byteVal_pos b bs hb
        omega
      subst hb
      have hbs : byteVal 256 bs = 0 := by
        have : byteVal 256 (0 :: bs) = byteVal 256 bs := rfl
        omega
      simp only [List.all_cons, Bool.and_eq_true]
      exact ⟨by simp, ih.1 hbs⟩
    · intro h
      simp only [List.all_cons, Bool.and_eq_true] at h
      have hb : b = 0 := by simpa using h.1
      subst hb
      have : byteVal 256 (0 :: bs) = byteVal 256 bs := rfl
      rw [this]
      exact ih.2 h.2

/-- The digit-emission loop of src/codec/base92.rs `Base92::encode`
(`while !num.iter().all(|&x| x == 0) { ... }`), emitting remainders
least-significant first; the characters are rendered afterwards (the
Rust code renders inside the loop, same result). -/
def base92DigitsLSB (num : List Nat) : List Nat :=
  if h : num.all (fun x => x == 0) then []
  else
    (divmod92 num 0).2 :: base92DigitsLSB (trimZeros (divmod92 num 0).1)
termination_by byteVal 256 num
decreasing_by
  rw [trimZeros_val]
  have hval := divmod92_val num 0
  simp only [Nat.zero_mul, Nat.zero_add] at hval
  have hpos : 0 < byteVal 256 num := by
    rcases Nat.eq_zero_or_pos (byteVal 256 num) with h0 | h0
    · exact absurd ((byteVal_eq_zero_iff num).1 h0) h
    · exact h0
  omega

/-- The loop emits exactly the base-92 expansion of the value. -/
theorem base92DigitsLSB_eq_pushCarry (num : List Nat) :
    base92DigitsLSB num = pushCarry 92 (byteVal 256 num) := by
  induction num using base92DigitsLSB.induct with
  | case1 num h =>
    rw [base92DigitsLSB, dif_pos h, (byteVal_eq_zero_iff num).2 h, pushCarry_unfold]
    simp
  | case2 num h ih =>
    rw [base92DigitsLSB, dif_neg h, ih, trimZeros_val]
    have hval := divmod92_val num 0
    simp only [Nat.zero_mul, Nat.zero_add] at hval
    have hpos : 0 < byteVal 256 num := by
      rcases Nat.eq_zero_or_pos (byteVal 256 num) with h0 | h0
      · exact absurd ((byteVal_eq_zero_iff num).1 h0) h
      · exact h0
    have hrem := divmod92_rem_lt num 0 (by omega)
    have hmod : (divmod92 num 0).2 = byteVal 256 num % 92 := by omega
    have hdiv : byteVal 256 (divmod92 num 0).1 = byteVal 256 num / 92 := by omega
    rw [hmod, hdiv]
    conv_rhs => rw [pushCarry_unfold]
    rw [if_neg (by omega)]

/-- src/codec/base92.rs `Base92::encode`.  The Rust code renders each
remainder to a character as it is emitted and reverses at the end; the
translation emits the digit list (`base92DigitsLSB`), reverses, and
renders — the same string. -/
def base92_encode (input : List Nat) : Except MbaseError (List Char) :=
  if input.isEmpty then .ok []
  else
    let leadingZeros := (input.takeWhile (fun b => b == 0)).length
    if leadingZeros == input.length then
      .ok (List.replicate input.length (alphaChar BASE92_ALPHABET 0))
    else
      .ok (List.replicate leadingZeros (alphaChar BASE92_ALPHABET 0) ++
        (base92DigitsLSB (input.drop leadingZeros)).reverse.map
          (fun d => alphaChar BASE92_ALPHABET d))

/-- The char-value pass of src/codec/base92.rs `Base92::decode`
(`BASE92_ALPHABET.find(c)` with error position `i + leading_zeros`; the
alphabet is pure ASCII, so Rust's byte index equals the char index). -/
def base92_vals : List Char → Nat → Except MbaseError (List Nat)
| [], _ => .ok []
| c :: cs, pos =>
    match BASE92_ALPHABET.findIdx? (fun x => x == c) with
    | none => .error (.InvalidCharacter c pos)
    | some v => do
        let rest ← base92_vals cs (pos + 1)
        .ok (v :: rest)

/-- src/codec/base92.rs `Base92::decode`.  The Rust loop looks each
digit up and multiplies it into `num` immediately; precomputing the
digit values and folding afterwards is the same computation (the lookup
errors short-circuit identically, and the fold is total). -/
def base92_decode (input : List Char) (mode : Mode) : Except MbaseError (List Nat) :=
  let cleaned := if mode == Mode.Lenient then
      input.filter (fun c => !(isRustWhitespace c))
    else input
  if cleaned.isEmpty then .ok []
  else
    let leadingZeros :=
      (cleaned.takeWhile (fun c => c == alphaChar BASE92_ALPHABET 0)).length
    if leadingZeros == cleaned.length then .ok (List.replicate leadingZeros 0)
    else
      match base92_vals (cleaned.drop leadingZeros) leadingZeros with
      | .error e => .error e
      | .ok vals =>
          .ok (List.replicate leadingZeros 0 ++
            vals.foldl (fun acc v => (mulAddDigits 256 92 v acc.reverse).reverse) [0])

theorem base92_tables :
    (∀ d : Nat, d < 92 →
      BASE92_ALPHABET.findIdx? (fun x => x == alphaChar BASE92_ALPHABET d) = some d) ∧
    (∀ d : Nat, d < 92 →
      ((alphaChar BASE92_ALPHABET d == alphaChar BASE92_ALPHABET 0)) = (d == 0)) := by
  decide

theorem base92_vals_of_digits (ds : List Nat) (hds : ∀ d ∈ ds, d < 92) :
    ∀ pos, base92_vals (ds.map (fun d => alphaChar BASE92_ALPHABET d)) pos = .ok ds := by
  induction ds with
  | nil => intro pos; rfl
  | cons d ds ih =>
    intro pos
    have hd : d < 92 := hds d (by simp)
    simp only [List.map_cons, base92_vals, base92_tables.1 d hd]
    rw [ih (fun x hx => hds x (List.mem_cons_of_mem _ hx)) (pos + 1)]
    rfl

/-- Dropping as many elements as `takeWhile` keeps is `dropWhile`. -/
theorem drop_takeWhile_length {α : Type} (p : α → Bool) (l : List α) :
    l.drop (l.takeWhile p).length = l.dropWhile p := by
  induction l with
  | nil => rfl
  | cons a as ih =>
    by_cases ha : p a
    · simp [List.takeWhile_cons, List.dropWhile_cons, ha, ih]
    · simp [List.takeWhile_cons, List.dropWhile_cons, ha]

/-- The decode fold started from `vec![0]` coincides with the fold from
the empty vector as soon as the first digit is nonzero. -/
theorem base92_fold_init (v : Nat) (vs : List Nat) (hv : v ≠ 0) (hv2 : v < 256) :
    (v :: vs).foldl (fun acc v => (mulAddDigits 256 92 v acc.reverse).reverse) [0] =
      (v :: vs).foldl (fun acc v => (mulAddDigits 256 92 v acc.reverse).reverse) [] := by
  simp only [List.foldl_cons]
  congr 1
  show (mulAddDigits 256 92 v [0]).reverse = (mulAddDigits 256 92 v []).reverse
  congr 1
  show (v + 0 * 92) % 256 :: mulAddDigits 256 92 ((v + 0 * 92) / 256) [] = pushCarry 256 v
  rw [Nat.zero_mul, Nat.add_zero, Nat.mod_eq_of_lt hv2, Nat.div_eq_of_lt hv2]
  show v :: pushCarry 256 0 = pushCarry 256 v
  rw [pushCarry_unfold, if_pos (Or.inl rfl)]
  rw [pushCarry_unfold, if_neg (by omega)]
  rw [Nat.mod_eq_of_lt hv2, Nat.div_eq_of_lt hv2]
  rw [pushCarry_unfold, if_pos (Or.inl rfl)]

/-- Round-trip: src/codec/base92.rs (`decode(encode(b), Strict) = b`). -/
theorem base92_roundtrip (input : List Nat) (hin : ∀ b ∈ input, b < 256) :
    (base92_encode input).bind (fun s => base92_decode s Mode.Strict) = .ok input := by
  classical
  by_cases hinput : input = []
  · subst hinput; rfl
  · have hne : input.isEmpty = false := by
      cases input with
      | nil => exact absurd rfl hinput
      | cons a l => rfl
    have htw : input.takeWhile (fun b => b == 0) =
        List.replicate (input.takeWhile (fun b => b == 0)).length 0 :=
      takeWhile_zero_replicate input
    have hsplit : List.replicate (input.takeWhile (fun b => b == 0)).length 0 ++
        input.dropWhile (fun b => b == 0) = input := by
      rw [← htw]
      exact List.takeWhile_append_dropWhile _ input
    have hdrop : input.drop (input.takeWhile (fun b => b == 0)).length =
        input.dropWhile (fun b => b == 0) := drop_takeWhile_length _ input
    by_cases hall : (input.takeWhile (fun b => b == 0)).length = input.length
    · -- all-zero input
      have hrep : input = List.replicate input.length 0 := by
        have hlen2 : (input.takeWhile (fun b => b == 0)).length +
            (input.dropWhile (fun b => b == 0)).length = input.length := by
          have := congrArg List.length hsplit
          simpa using this
        have hdw : input.dropWhile (fun b => b == 0) = [] := by
          have : (input.dropWhile (fun b => b == 0)).length = 0 := by omega
          exact List.length_eq_zero.1 this
        conv_lhs => rw [← hsplit]
        rw [hdw, List.append_nil, hall]
      have henc : base92_encode input =
          .ok (List.replicate input.length (alphaChar BASE92_ALPHABET 0)) := by
        rw [base92_encode, if_neg (by simp [hne]), if_pos (by simpa using hall)]
      rw [henc]
      show base92_decode (List.replicate input.length (alphaChar BASE92_ALPHABET 0))
        Mode.Strict = .ok input
      have hlpos : input.length ≠ 0 := by
        intro h0
        exact hinput (List.length_eq_zero.1 h0)
      have hEne : (List.replicate input.length (alphaChar BASE92_ALPHABET 0)).isEmpty
          = false := by
        cases hl : List.replicate input.length (alphaChar BASE92_ALPHABET 0) with
        | nil =>
          exact absurd (by simpa using congrArg List.length hl) hlpos
        | cons a l => rfl
      have htwz : (List.replicate input.length (alphaChar BASE92_ALPHABET 0)).takeWhile
          (fun c => c == alphaChar BASE92_ALPHABET 0) =
          List.replicate input.length (alphaChar BASE92_ALPHABET 0) := by
        have := takeWhile_replicate_append (fun c => c == alphaChar BASE92_ALPHABET 0)
          (alphaChar BASE92_ALPHABET 0) (by simp) input.length ([] : List Char)
        simpa using this
      rw [base92_decode]
      simp only [show (Mode.Strict == Mode.Lenient) = false from rfl, Bool.false_eq_true,
        if_false]
      rw [if_neg (by simp [hEne]), htwz]
      rw [if_pos (by simp)]
      rw [List.length_replicate]
      exact congrArg Except.ok hrep.symm
    · -- a nonzero byte exists
      have hrest : input.dropWhile (fun b => b == 0) ≠ [] := by
        intro h0
        have := congrArg List.length hsplit
        rw [h0] at this
        simp at this
        omega
      rcases hrx : input.dropWhile (fun b => b == 0) with _ | ⟨r, rr⟩
      · exact absurd hrx hrest
      have hrne : r ≠ 0 := by
        have := head?_dropWhile_not (fun b => b == 0) input r (by rw [hrx]; rfl)
        simpa using this
      have hV : 0 < byteVal 256 (input.dropWhile (fun b => b == 0)) := by
        rw [hrx]
        exact byteVal_pos r rr hrne
      have hdigits : base92DigitsLSB (input.drop (input.takeWhile (fun b => b == 0)).length)
          = pushCarry 92 (byteVal 256 (input.dropWhile (fun b => b == 0))) := by
        rw [hdrop, base92DigitsLSB_eq_pushCarry]
      have hpcne : pushCarry 92 (byteVal 256 (input.dropWhile (fun b => b == 0))) ≠ [] := by
        intro h0
        have := (pushCarry_eq_nil 92 _ (by omega)).1 h0
        omega
      have henc : base92_encode input =
          .ok (List.replicate (input.takeWhile (fun b => b == 0)).length
              (alphaChar BASE92_ALPHABET 0) ++
            (pushCarry 92 (byteVal 256 (input.dropWhile (fun b => b == 0)))).reverse.map
              (fun d => alphaChar BASE92_ALPHABET d)) := by
        rw [base92_encode, if_neg (by simp [hne]), if_neg (by simpa using hall), hdigits]
      rw [henc]
      show base92_decode _ Mode.Strict = .ok input
      -- facts about the digit string
      have hpc_mem := pushCarry_mem 92 (by omega)
        (byteVal 256 (input.dropWhile (fun b => b == 0)))
      rcases hpr : (pushCarry 92 (byteVal 256 (input.dropWhile (fun b => b == 0)))).reverse
        with _ | ⟨gl, gs⟩
      · exact absurd (by simpa using congrArg List.reverse hpr) hpcne
      have hgl_mem : gl ∈ pushCarry 92 (byteVal 256 (input.dropWhile (fun b => b == 0))) := by
        rw [← List.mem_reverse, hpr]
        simp
      have hgl92 : gl < 92 := hpc_mem gl hgl_mem
      have hglne : gl ≠ 0 := by
        refine pushCarry_last 92 (by omega)
          (byteVal 256 (input.dropWhile (fun b => b == 0))) gl ?_
        rw [← List.head?_reverse, hpr]
        rfl
      have hheadne : ((alphaChar BASE92_ALPHABET gl == alphaChar BASE92_ALPHABET 0)) =
          false := by
        rw [base92_tables.2 gl hgl92]
        simpa using hglne
      have hlz : ((List.replicate (input.takeWhile (fun b => b == 0)).length
            (alphaChar BASE92_ALPHABET 0) ++
          (pushCarry 92 (byteVal 256 (input.dropWhile (fun b => b == 0)))).reverse.map
            (fun d => alphaChar BASE92_ALPHABET d)).takeWhile
          (fun c => c == alphaChar BASE92_ALPHABET 0)).length =
          (input.takeWhile (fun b => b == 0)).length := by
        rw [takeWhile_replicate_append _ _ (by simp), hpr, List.map_cons,
          takeWhile_cons_neg (fun c => c == alphaChar BASE92_ALPHABET 0)
            (alphaChar BASE92_ALPHABET gl) hheadne,
          List.append_nil, List.length_replicate]
      have hsne : (List.replicate (input.takeWhile (fun b => b == 0)).length
            (alphaChar BASE92_ALPHABET 0) ++
          (pushCarry 92 (byteVal 256 (input.dropWhile (fun b => b == 0)))).reverse.map
            (fun d => alphaChar BASE92_ALPHABET d)).isEmpty = false := by
        rw [hpr]
        cases h : List.replicate (input.takeWhile (fun b => b == 0)).length
            (alphaChar BASE92_ALPHABET 0) with
        | nil => rfl
        | cons a l => rfl
      have hslen : (List.replicate (input.takeWhile (fun b => b == 0)).length
            (alphaChar BASE92_ALPHABET 0) ++
          (pushCarry 92 (byteVal 256 (input.dropWhile (fun b => b == 0)))).reverse.map
            (fun d => alphaChar BASE92_ALPHABET d)).length =
          (input.takeWhile (fun b => b == 0)).length +
            (pushCarry 92 (byteVal 256 (input.dropWhile (fun b => b == 0)))).length := by
        simp
      rw [base92_decode]
      simp only [show (Mode.Strict == Mode.Lenient) = false from rfl, Bool.false_eq_true,
        if_false]
      rw [if_neg (by simp [hsne])]
      rw [← hpr]
      rw [hlz]
      rw [if_neg (by
        have hpclen : 0 < (pushCarry 92
            (byteVal 256 (input.dropWhile (fun b => b == 0)))).length := by
          cases hc : pushCarry 92 (byteVal 256 (input.dropWhile (fun b => b == 0))) with
          | nil => exact absurd hc hpcne
          | cons a l => simp
        intro hcontra
        simp only [beq_iff_eq] at hcontra
        omega)]
      rw [List.drop_append_of_le_length (by simp), List.drop_replicate]
      rw [show (input.takeWhile (fun b => b == 0)).length -
        (input.takeWhile (fun b => b == 0)).length = 0 from by omega]
      rw [List.replicate_zero, List.nil_append]
      rw [base92_vals_of_digits _ (fun d hd => hpc_mem d (by rwa [← List.mem_reverse]))]
      rw [hpr]
      have hgl256 : gl < 256 := by omega
      show Except.ok (List.replicate (List.takeWhile (fun b => b == 0) input).length 0 ++
          List.foldl (fun acc v => (mulAddDigits 256 92 v acc.reverse).reverse) [0]
            (gl :: gs)) = Except.ok input
      rw [base92_fold_init gl gs hglne hgl256]
      have hfold_eq : (gl :: gs).foldl
          (fun acc v => (mulAddDigits 256 92 v acc.reverse).reverse) [] =
          decodeBigBytes 92 (gl :: gs) := rfl
      rw [hfold_eq, ← hpr, decodeBigBytes_eq_rev]
      have hdval : digitsVal 256
          ((pushCarry 92 (byteVal 256 (input.dropWhile (fun b => b == 0)))).reverse.foldl
            (fun acc d => mulAddDigits 256 92 d acc) []) =
          digitsVal 256 (input.dropWhile (fun b => b == 0)).reverse := by
        rw [decodeLE_val 92 (by omega), foldl_reverse_digitsVal 92,
          pushCarry_val 92 (by omega)]
        have h2 := foldl_reverse_digitsVal 256 (input.dropWhile (fun b => b == 0)).reverse
        rw [List.reverse_reverse] at h2
        rw [← h2]
        rfl
      have hcanonLE := decodeLE_canon 92 (by omega)
        (pushCarry 92 (byteVal 256 (input.dropWhile (fun b => b == 0)))).reverse
      have hcanonrest : CanonDigits 256 (input.dropWhile (fun b => b == 0)).reverse := by
        constructor
        · intro d hd
          rw [List.mem_reverse] at hd
          refine hin d ?_
          rw [← hsplit]
          exact List.mem_append_right _ hd
        · intro d hd
          rw [List.getLast?_reverse] at hd
          have := head?_dropWhile_not (fun b => b == 0) input d hd
          simpa using this
      have heq := canonDigits_val_inj 256 (by omega) _ _ hcanonLE hcanonrest hdval
      rw [heq, List.reverse_reverse, hsplit]

/- ----------------------------------------------------------------
Base45 round-trip
---------------------------------------------------------------- -/

theorem base45_tables :
    ∀ v : Nat, v < 45 → char_to_val (val_to_char v) = some v := by
  decide

theorem base45_vals_ok (s : List Char) (h : ∀ c ∈ s, (char_to_val c).isSome) :
    ∀ pos, base45_vals s pos = .ok (s.map (fun c => (char_to_val c).getD 0)) := by
  induction s with
  | nil => intro pos; rfl
  | cons c cs ih =>
    intro pos
    rcases hc : char_to_val c with _ | v
    · exact absurd (hc ▸ h c (by simp)) (by simp)
    · simp only [base45_vals, hc, List.map_cons, Option.getD_some]
      rw [ih (fun x hx => h x (List.mem_cons_of_mem _ hx)) (pos + 1)]
      rfl

/-- The combined structural facts about the base45 encoder's output:
the digit values reassemble to the input, the length is never 1 mod 3,
every character is in the alphabet, and the output is empty only for
empty input. -/
theorem base45_encode_core : ∀ (input : List Nat), (∀ b ∈ input, b < 256) →
    base45_chunks ((encode_base45 input).map (fun c => (char_to_val c).getD 0)) = .ok input ∧
    (encode_base45 input).length % 3 ≠ 1 ∧
    (∀ c ∈ encode_base45 input, (char_to_val c).isSome) ∧
    (input ≠ [] → encode_base45 input ≠ [])
| [], _ => by
    refine ⟨rfl, by simp [encode_base45], by simp [encode_base45], fun h => absurd rfl h⟩
| [b], hin => by
    have hb : b < 256 := hin b (by simp)
    have h1 : b % 45 < 45 := Nat.mod_lt _ (by omega)
    have h2 : b / 45 % 45 < 45 := Nat.mod_lt _ (by omega)
    have e1 := base45_tables (b % 45) h1
    have e2 := base45_tables (b / 45 % 45) h2
    refine ⟨?_, by simp [encode_base45], ?_, fun _ => by simp [encode_base45]⟩
    · simp only [encode_base45, List.map_cons, List.map_nil, e1, e2, Option.getD_some]
      have hd45 : b / 45 < 45 := by omega
      have hmod : b / 45 % 45 = b / 45 := Nat.mod_eq_of_lt hd45
      show base45_chunks [b % 45, b / 45 % 45] = .ok [b]
      rw [show base45_chunks [b % 45, b / 45 % 45] =
        (if b % 45 + b / 45 % 45 * 45 > 0xFF then
          .error (.InvalidInput "base45 value overflow")
        else .ok [b % 45 + b / 45 % 45 * 45]) from rfl]
      rw [hmod]
      have hval : b % 45 + b / 45 * 45 = b := by omega
      rw [hval, if_neg (by omega)]
    · intro c hc
      simp only [encode_base45] at hc
      rcases List.mem_cons.1 hc with rfl | hc
      · simp [e1]
      · rcases List.mem_cons.1 hc with rfl | hc
        · simp [e2]
        · simp at hc
| b0 :: b1 :: rest, hin => by
    have hb0 : b0 < 256 := hin b0 (by simp)
    have hb1 : b1 < 256 := hin b1 (by simp)
    obtain ⟨ih1, ih2, ih3, _⟩ := base45_encode_core rest
      (fun x hx => hin x (by simp [hx]))
    have hn : b0 * 256 + b1 < 65536 := by omega
    have h1 : (b0 * 256 + b1) % 45 < 45 := Nat.mod_lt _ (by omega)
    have h2 : (b0 * 256 + b1) / 45 % 45 < 45 := Nat.mod_lt _ (by omega)
    have h3 : (b0 * 256 + b1) / (45 * 45) < 45 := by omega
    have e1 := base45_tables _ h1
    have e2 := base45_tables _ h2
    have e3 := base45_tables _ h3
    have henc : encode_base45 (b0 :: b1 :: rest) =
        val_to_char ((b0 * 256 + b1) % 45) :: val_to_char ((b0 * 256 + b1) / 45 % 45) ::
          val_to_char ((b0 * 256 + b1) / (45 * 45)) :: encode_base45 rest := rfl
    refine ⟨?_, ?_, ?_, fun _ => by rw [henc]; simp⟩
    · rw [henc]
      simp only [List.map_cons, e1, e2, e3, Option.getD_some]
      show base45_chunks ((b0 * 256 + b1) % 45 :: (b0 * 256 + b1) / 45 % 45 ::
        (b0 * 256 + b1) / (45 * 45) ::
        (encode_base45 rest).map (fun c => (char_to_val c).getD 0)) = _
      rw [base45_chunks]
      have hsum : (b0 * 256 + b1) % 45 + (b0 * 256 + b1) / 45 % 45 * 45 +
          (b0 * 256 + b1) / (45 * 45) * (45 * 45) = b0 * 256 + b1 := by omega
      rw [hsum, if_neg (by omega)]
      rw [ih1]
      have hdiv : (b0 * 256 + b1) / 256 = b0 := by omega
      have hmod : (b0 * 256 + b1) % 256 = b1 := by omega
      rw [hdiv, hmod]
      rfl
    · rw [henc]
      simp only [List.length_cons]
      omega
    · rw [henc]
      intro c hc
      rcases List.mem_cons.1 hc with rfl | hc
      · simp [e1]
      · rcases List.mem_cons.1 hc with rfl | hc
        · simp [e2]
        · rcases List.mem_cons.1 hc with rfl | hc
          · simp [e3]
          · exact ih3 c hc

/-- Round-trip: src/codec/base45.rs (`decode(encode(b), Strict) = b`). -/
theorem base45_roundtrip (input : List Nat) (hin : ∀ b ∈ input, b < 256) :
    decode_base45 (encode_base45 input) Mode.Strict = .ok input := by
  obtain ⟨hchunks, hlen, hsome, hne⟩ := base45_encode_core input hin
  by_cases hinput : input = []
  · subst hinput; rfl
  · have hE : (encode_base45 input).isEmpty = false := by
      cases h : encode_base45 input with
      | nil => exact absurd h (hne hinput)
      | cons a l => rfl
    rw [decode_base45]
    simp only [clean_for_mode, hE, Bool.false_eq_true, if_false]
    rw [base45_vals_ok (encode_base45 input) hsome 0]
    show (if ((((encode_base45 input).map (fun c => (char_to_val c).getD 0)).length % 3 == 1)
          = true) then
        Except.error (MbaseError.InvalidInput ("base45 length " ++
          toString ((encode_base45 input).map (fun c => (char_to_val c).getD 0)).length ++
          " invalid (cannot be 1 mod 3)"))
      else base45_chunks ((encode_base45 input).map (fun c => (char_to_val c).getD 0)))
      = .ok input
    rw [if_neg (by
      simp only [List.length_map, beq_iff_eq]
      simpa using hlen)]
    exact hchunks

/- ----------------------------------------------------------------
Tap code round-trip on its lossless sub-domain
---------------------------------------------------------------- -/

/-- The two-character code emitted for byte `b` (the `filter_map` body,
specialised to bytes whose character encodes). -/
def tapPairOf (b : Nat) : List Char := (tapCharCode (Char.ofNat b)).getD []

theorem tap_tables_parts :
    (∀ b < 91, 65 ≤ b → b ≠ 75 → tapCharCode (Char.ofNat b) = some (tapPairOf b)) ∧
    (∀ b < 91, 65 ≤ b → b ≠ 75 → tapPairOf b ≠ []) ∧
    (∀ b < 91, 65 ≤ b → b ≠ 75 → ∀ c ∈ tapPairOf b, isRustWhitespace c = false) ∧
    (∀ b < 91, 65 ≤ b → b ≠ 75 → tapDecodePair (tapPairOf b) = .ok (Char.ofNat b)) ∧
    (∀ b < 91, 65 ≤ b → Char.toUpper (Char.ofNat b) = Char.ofNat b ∧
      (Char.ofNat b).toNat = b) := by
  refine ⟨by decide, by decide, by decide, by decide, by decide⟩

theorem tap_tables (b : Nat) (hb : b < 91) (h65 : 65 ≤ b) (h75 : b ≠ 75) :
    tapCharCode (Char.ofNat b) = some (tapPairOf b) ∧
    tapPairOf b ≠ [] ∧
    (∀ c ∈ tapPairOf b, isRustWhitespace c = false) ∧
    tapDecodePair (tapPairOf b) = .ok (Char.ofNat b) ∧
    Char.toUpper (Char.ofNat b) = Char.ofNat b ∧
    (Char.ofNat b).toNat = b :=
  ⟨tap_tables_parts.1 b hb h65 h75, tap_tables_parts.2.1 b hb h65 h75,
   tap_tables_parts.2.2.1 b hb h65 h75, tap_tables_parts.2.2.2.1 b hb h65 h75,
   (tap_tables_parts.2.2.2.2 b hb h65).1, (tap_tables_parts.2.2.2.2 b hb h65).2⟩

theorem takeWhile_append_all {α : Type} (p : α → Bool) (l1 l2 : List α)
    (h : ∀ x ∈ l1, p x = true) :
    (l1 ++ l2).takeWhile p = l1 ++ l2.takeWhile p := by
  induction l1 with
  | nil => simp
  | cons a as ih =>
    simp [List.takeWhile_cons, h a (by simp),
      ih (fun x hx => h x (List.mem_cons_of_mem _ hx))]

theorem dropWhile_append_all {α : Type} (p : α → Bool) (l1 l2 : List α)
    (h : ∀ x ∈ l1, p x = true) :
    (l1 ++ l2).dropWhile p = l2.dropWhile p := by
  induction l1 with
  | nil => simp
  | cons a as ih =>
    simp [List.dropWhile_cons, h a (by simp),
      ih (fun x hx => h x (List.mem_cons_of_mem _ hx))]

theorem splitWhitespace_space (s : List Char) :
    splitWhitespace (' ' :: s) = splitWhitespace s := by
  rw [splitWhitespace_cons]
  rw [if_pos (show isRustWhitespace ' ' = true from rfl)]

theorem splitWhitespace_token (t : List Char) (ht : t ≠ [])
    (hws : ∀ c ∈ t, isRustWhitespace c = false) (s : List Char)
    (hs : s = [] ∨ s.head? = some ' ') :
    splitWhitespace (t ++ s) = t :: splitWhitespace s := by
  rcases t with _ | ⟨c, t'⟩
  · exact absurd rfl ht
  have hc : isRustWhitespace c = false := hws c (by simp)
  rw [List.cons_append, splitWhitespace_cons, if_neg (by simp [hc])]
  have hall : ∀ x ∈ t', (fun x => !isRustWhitespace x) x = true := by
    intro x hx
    simp [hws x (List.mem_cons_of_mem _ hx)]
  have htkw : (t' ++ s).takeWhile (fun x => !isRustWhitespace x) = t' := by
    rw [takeWhile_append_all _ t' s hall]
    rcases hs with rfl | hh
    · simp
    · rcases s with _ | ⟨s0, ss⟩
      · simp
      · simp only [List.head?] at hh
        injection hh with hh
        subst hh
        rw [takeWhile_cons_neg (fun x => !isRustWhitespace x) ' ' (by rfl)]
        simp
  have hdw : (t' ++ s).dropWhile (fun x => !isRustWhitespace x) = s := by
    rw [dropWhile_append_all _ t' s hall]
    rcases hs with rfl | hh
    · simp
    · rcases s with _ | ⟨s0, ss⟩
      · simp
      · simp only [List.head?] at hh
        injection hh with hh
        subst hh
        rw [List.dropWhile_cons, if_neg (by decide)]
  rw [htkw, hdw]

theorem splitWhitespace_joinSep (toks : List (List Char))
    (h : ∀ t ∈ toks, t ≠ [] ∧ ∀ c ∈ t, isRustWhitespace c = false) :
    splitWhitespace (joinSep [' '] toks) = toks := by
  have h0 : splitWhitespace ([] : List Char) = [] := rfl
  induction toks with
  | nil => simpa [joinSep] using h0
  | cons t ts ih =>
    rcases ts with _ | ⟨t2, ts'⟩
    · rw [show joinSep [' '] [t] = t from rfl]
      have := splitWhitespace_token t (h t (by simp)).1 (h t (by simp)).2 [] (Or.inl rfl)
      rw [h0] at this
      simpa using this
    · have hj : joinSep [' '] (t :: t2 :: ts') =
          t ++ ([' '] ++ joinSep [' '] (t2 :: ts')) := by
        show t ++ [' '] ++ joinSep [' '] (t2 :: ts') =
          t ++ ([' '] ++ joinSep [' '] (t2 :: ts'))
        rw [List.append_assoc]
      rw [hj]
      rw [splitWhitespace_token t (h t (by simp)).1 (h t (by simp)).2
        ([' '] ++ joinSep [' '] (t2 :: ts')) (Or.inr rfl)]
      rw [show ([' '] ++ joinSep [' '] (t2 :: ts')) =
        ' ' :: joinSep [' '] (t2 :: ts') from rfl]
      rw [splitWhitespace_space]
      rw [ih (fun x hx => h x (List.mem_cons_of_mem _ hx))]

theorem tap_filterMap (l : List Nat) (h : ∀ b ∈ l, 65 ≤ b ∧ b ≤ 90 ∧ b ≠ 75) :
    l.filterMap (fun b => tapCharCode (Char.ofNat b)) = l.map tapPairOf := by
  induction l with
  | nil => rfl
  | cons b bs ih =>
    obtain ⟨h1, h2, h3⟩ := h b (by simp)
    have ht := tap_tables b (by omega) h1 h3
    simp only [List.filterMap_cons, ht.1, List.map_cons]
    rw [ih (fun x hx => h x (List.mem_cons_of_mem _ hx))]

theorem tap_mapM (l : List Nat) (h : ∀ b ∈ l, 65 ≤ b ∧ b ≤ 90 ∧ b ≠ 75) :
    (l.map tapPairOf).mapM tapDecodePair = .ok (l.map Char.ofNat) := by
  induction l with
  | nil => rfl
  | cons b bs ih =>
    obtain ⟨h1, h2, h3⟩ := h b (by simp)
    have ht := tap_tables b (by omega) h1 h3
    simp only [List.map_cons, List.mapM_cons, ht.2.2.2.1]
    rw [ih (fun x hx => h x (List.mem_cons_of_mem _ hx))]
    rfl

/-- Round-trip of src/codec/unicode_tap.rs `TapCode` on its lossless
sub-domain: byte strings of uppercase ASCII letters other than `'K'`. -/
theorem tap_roundtrip (input : List Nat) (hne : input ≠ [])
    (hin : ∀ b ∈ input, 65 ≤ b ∧ b ≤ 90 ∧ b ≠ 75) :
    (tap_encode input).bind (fun s => tap_decode s Mode.Strict) = .ok input := by
  have htext : (utf8Lossy input).map Char.toUpper = input.map Char.ofNat := by
    rw [utf8Lossy, List.map_map]
    apply List.map_congr_left
    intro b hb
    obtain ⟨h1, h2, h3⟩ := hin b hb
    have ht := tap_tables b (by omega) h1 h3
    simp only [Function.comp_apply]
    rw [if_pos (show b < 128 by omega)]
    exact ht.2.2.2.2.1
  have hcodes : (input.map Char.ofNat).filterMap tapCharCode = input.map tapPairOf := by
    rw [List.filterMap_map]
    exact tap_filterMap input hin
  have hcne : input.map tapPairOf ≠ [] := by
    intro h0
    exact hne (by simpa using congrArg List.length h0)
  have hcE : (input.map tapPairOf).isEmpty = false := by
    cases h : input.map tapPairOf with
    | nil => exact absurd h hcne
    | cons a l => rfl
  have henc : tap_encode input = .ok (joinSep [' '] (input.map tapPairOf)) := by
    rw [tap_encode]
    simp only [htext, hcodes, hcE, Bool.false_eq_true, if_false]
  rw [henc]
  show tap_decode (joinSep [' '] (input.map tapPairOf)) Mode.Strict = .ok input
  rw [tap_decode]
  simp only [show (Mode.Strict == Mode.Lenient) = false from rfl, Bool.false_eq_true,
    if_false]
  rw [splitWhitespace_joinSep (input.map tapPairOf) (by
    intro t htmem
    rcases List.mem_map.1 htmem with ⟨b, hb, rfl⟩
    obtain ⟨h1, h2, h3⟩ := hin b hb
    have ht := tap_tables b (by omega) h1 h3
    exact ⟨ht.2.1, ht.2.2.1⟩)]
  rw [tap_mapM input hin]
  show Except.ok (((input.map Char.ofNat).map Char.toNat)) = Except.ok input
  rw [List.map_map]
  congr 1
  have : ∀ b ∈ input, (Char.toNat ∘ Char.ofNat) b = b := by
    intro b hb
    obtain ⟨h1, h2, h3⟩ := hin b hb
    have ht := tap_tables b (by omega) h1 h3
    simpa using ht.2.2.2.2.2
  rw [List.map_congr_left this]
  exact List.map_id _

/- ----------------------------------------------------------------
SHA-256 and Base58Check (src/codec/base58.rs)
---------------------------------------------------------------- -/

/-- Modelled from the spec: §4.4 invokes "double-SHA-256"; SHA-256 is
the FIPS 180-4 function computed by the external `sha2` crate.  32-bit
words are `Nat`s kept below `2^32` by explicit `% 4294967296`.  This is
the 32-bit right rotation. -/
def rotr32 (n x : Nat) : Nat := ((x >>> n) ||| (x <<< (32 - n))) % 4294967296

/-- Modelled from the spec: the 64 FIPS 180-4 SHA-256 round constants
(the first 32 bits of the fractional parts of the cube roots of the
first 64 primes), written in decimal; the known-answer theorems below
pin them against the published test vectors. -/
def shaK : List Nat := [
  1116352408, 1899447441, 3049323471, 3921009573, 961987163, 1508970993,
  2453635748, 2870763221, 3624381080, 310598401, 607225278, 1426881987,
  1925078388, 2162078206, 2614888103, 3248222580, 3835390401, 4022224774,
  264347078, 604807628, 770255983, 1249150122, 1555081692, 1996064986,
  2554220882, 2821834349, 2952996808, 3210313671, 3336571891, 3584528711,
  113926993, 338241895, 666307205, 773529912, 1294757372, 1396182291,
  1695183700, 1986661051, 2177026350, 2456956037, 2730485921, 2820302411,
  3259730800, 3345764771, 3516065817, 3600352804, 4094571909, 275423344,
  430227734, 506948616, 659060556, 883997877, 958139571, 1322822218,
  1537002063, 1747873779, 1955562222, 2024104815, 2227730452, 2361852424,
  2428436474, 2756734187, 3204031479, 3329325298]

/-- Modelled from the spec: the FIPS 180-4 SHA-256 initial hash value
(square-root fractional parts of the first 8 primes), in decimal. -/
def shaH0 : List Nat := [
  1779033703, 3144134277, 1013904242, 2773480762,
  1359893119, 2600822924, 528734635, 1541459225]

/-- Big-endian rendering of `v` on `n` bytes. -/
def beBytes (n v : Nat) : List Nat :=
  (List.range n).map (fun i => (v >>> (8 * (n - 1 - i))) % 256)

/-- Modelled from the spec: SHA-256 message padding (`0x80`, zeros, the
64-bit big-endian bit length, to a multiple of 64 bytes). -/
def shaPad (msg : List Nat) : List Nat :=
  msg ++ 0x80 :: (List.replicate ((119 - msg.length % 64) % 64) 0 ++
    beBytes 8 (8 * msg.length))

/-- Four big-endian bytes to one 32-bit word, across the list. -/
def toWords : List Nat → List Nat
| b0 :: b1 :: b2 :: b3 :: rest =>
    (((b0 * 256 + b1) * 256 + b2) * 256 + b3) :: toWords rest
| _ => []

/-- Modelled from the spec: the FIPS 180-4 small sigma-0. -/
def shaS0 (x : Nat) : Nat := (rotr32 7 x) ^^^ (rotr32 18 x) ^^^ (x >>> 3)

/-- Modelled from the spec: the FIPS 180-4 small sigma-1. -/
def shaS1 (x : Nat) : Nat := (rotr32 17 x) ^^^ (rotr32 19 x) ^^^ (x >>> 10)

/-- Modelled from the spec: the FIPS 180-4 big Sigma-0. -/
def shaB0 (x : Nat) : Nat := (rotr32 2 x) ^^^ (rotr32 13 x) ^^^ (rotr32 22 x)

/-- Modelled from the spec: the FIPS 180-4 big Sigma-1. -/
def shaB1 (x : Nat) : Nat := (rotr32 6 x) ^^^ (rotr32 11 x) ^^^ (rotr32 25 x)

/-- Modelled from the spec: the message-schedule extension, `W[i] =
W[i-16] + s0(W[i-15]) + W[i-7] + s1(W[i-2])`, over a reversed
accumulator (head = most recent word), 48 steps. -/
def shaScheduleGo : Nat → List Nat → List Nat
| 0, acc => acc.reverse
| n + 1, acc =>
    shaScheduleGo n (((acc.getD 15 0 + shaS0 (acc.getD 14 0) + acc.getD 6 0 +
      shaS1 (acc.getD 1 0)) % 4294967296) :: acc)

/-- The full 64-word schedule of one 16-word block. -/
def shaSchedule (block : List Nat) : List Nat := shaScheduleGo 48 block.reverse

/-- Modelled from the spec: one FIPS 180-4 compression round; the state
is the word list `[a, b, c, d, e, f, g, h]` and `kw` pairs the round
constant with the schedule word (`~e` on 32 bits is `e ^^^ 0xFFFFFFFF`). -/
def shaRound (st : List Nat) (kw : Nat × Nat) : List Nat :=
  match st with
  | [a, b, c, d, e, f, g, h] =>
      let ch := (e &&& f) ^^^ ((e ^^^ 4294967295) &&& g)
      let t1 := (h + shaB1 e + ch + kw.1 + kw.2) % 4294967296
      let mj := (a &&& b) ^^^ (a &&& c) ^^^ (b &&& c)
      let t2 := (shaB0 a + mj) % 4294967296
      [(t1 + t2) % 4294967296, a, b, c, (d + t1) % 4294967296, e, f, g]
  | other => other

/-- Modelled from the spec: compress one block into the hash state. -/
def shaCompress (H : List Nat) (block : List Nat) : List Nat :=
  let st := (shaK.zip (shaSchedule block)).foldl shaRound H
  (H.zip st).map (fun p => (p.1 + p.2) % 4294967296)

/-- The block loop, `n` = number of 16-word blocks left. -/
def shaLoop : Nat → List Nat → List Nat → List Nat
| 0, _, H => H
| n + 1, ws, H => shaLoop n (ws.drop 16) (shaCompress H (ws.take 16))

/-- Modelled from the spec: SHA-256 of a byte list, as 32 bytes. -/
def sha256 (msg : List Nat) : List Nat :=
  let ws := toWords (shaPad msg)
  (shaLoop (ws.length / 16) ws shaH0).flatMap (fun w => beBytes 4 w)

/-- src/codec/base58.rs `double_sha256`. -/
def double_sha256 (data : List Nat) : List Nat := sha256 (sha256 data)

/-- src/codec/base58.rs `Base58Check::encode`. -/
def base58check_encode (input : List Nat) : List Char :=
  bs58_encode (input ++ (double_sha256 input).take 4)

/-- src/codec/base58.rs `Base58Check::decode`. -/
def base58check_decode (input : List Char) (mode : Mode) :
    Except MbaseError (List Nat) :=
  let cleaned := clean_for_mode input mode
  match bs58_decode cleaned with
  | .error e => .error e
  | .ok decoded =>
      if decoded.length < 4 then
        .error (.InvalidInput "input too short for checksum")
      else
        let payload := decoded.take (decoded.length - 4)
        let checksum := decoded.drop (decoded.length - 4)
        if checksum == (double_sha256 payload).take 4 then .ok payload
        else .error .ChecksumMismatch

/-- Known-answer test pinning the SHA-256 model to the FIPS 180-4
vector `SHA-256("") = e3b0c442...b855`. -/
theorem sha256_empty_kat : sha256 [] =
    [0xe3, 0xb0, 0xc4, 0x42, 0x98, 0xfc, 0x1c, 0x14, 0x9a, 0xfb, 0xf4, 0xc8,
     0x99, 0x6f, 0xb9, 0x24, 0x27, 0xae, 0x41, 0xe4, 0x64, 0x9b, 0x93, 0x4c,
     0xa4, 0x95, 0x99, 0x1b, 0x78, 0x52, 0xb8, 0x55] := by
  decide

/-- Known-answer test for `SHA-256("abc")`. -/
theorem sha256_abc_kat : sha256 [0x61, 0x62, 0x63] =
    [0xba, 0x78, 0x16, 0xbf, 0x8f, 0x01, 0xcf, 0xea, 0x41, 0x41, 0x40, 0xde,
     0x5d, 0xae, 0x22, 0x23, 0xb0, 0x03, 0x61, 0xa3, 0x96, 0x17, 0x7a, 0x9c,
     0xb4, 0x10, 0xff, 0x61, 0xf2, 0x00, 0x15, 0xad] := by
  decide

/- ----------------------------------------------------------------
Bech32 / Bech32m (src/codec/bech32.rs over the external bech32 crate)
---------------------------------------------------------------- -/

/-- src/codec/bech32.rs `BECH32_ALPHABET` (the BIP-173 charset, also
the value-to-symbol table of the crate). -/
def bech32Charset : List Char := "qpzry9x8gf2tvdw0s3jn54khce6mua7l".data

/-- Modelled from the spec: one step of §4.4's "polynomial (BCH-style)
checksum", BIP-173's `bech32_polymod`, as the external bech32 crate
computes it. -/
def bech32PolymodStep (chk v : Nat) : Nat :=
  let b := chk >>> 25
  let c0 := ((chk &&& 0x1ffffff) <<< 5) ^^^ v
  let c1 := if (b >>> 0) &&& 1 == 1 then c0 ^^^ 0x3b6a57b2 else c0
  let c2 := if (b >>> 1) &&& 1 == 1 then c1 ^^^ 0x26508e6d else c1
  let c3 := if (b >>> 2) &&& 1 == 1 then c2 ^^^ 0x1ea119fa else c2
  let c4 := if (b >>> 3) &&& 1 == 1 then c3 ^^^ 0x3d4233dd else c3
  if (b >>> 4) &&& 1 == 1 then c4 ^^^ 0x2a1462b3 else c4

/-- Modelled from the spec: BIP-173 `bech32_polymod`. -/
def bech32Polymod (values : List Nat) : Nat := values.foldl bech32PolymodStep 1

/-- Modelled from the spec: BIP-173 `bech32_hrp_expand` (high bits of
each HRP character, a zero, then the low 5 bits of each). -/
def bech32HrpExpand (hrp : List Char) : List Nat :=
  hrp.map (fun c => c.toNat >>> 5) ++ 0 :: hrp.map (fun c => c.toNat &&& 31)

/-- The bech32 checksum constant (BIP-173). -/
def BECH32_CONST : Nat := 1

/-- The bech32m checksum constant (BIP-350). -/
def BECH32M_CONST : Nat := 0x2bc830a3

/-- Modelled from the spec: BIP-173 `bech32_create_checksum` under the
variant's constant. -/
def bech32CreateChecksum (hrp : List Char) (data : List Nat) (const : Nat) :
    List Nat :=
  let pm := bech32Polymod (bech32HrpExpand hrp ++ data ++ [0, 0, 0, 0, 0, 0]) ^^^ const
  (List.range 6).map (fun i => (pm >>> (5 * (5 - i))) &&& 31)

/-- The big-endian bits of one byte. -/
def byteBits (b : Nat) : List Nat := (List.range 8).map (fun i => (b >>> (7 - i)) &&& 1)

/-- The big-endian bits of one 5-bit field element. -/
def feBits (b : Nat) : List Nat := (List.range 5).map (fun i => (b >>> (4 - i)) &&& 1)

/-- Five big-endian bits to a field element, across the list; a short
trailing group is dropped. -/
def bitsToFes : List Nat → List Nat
| b0 :: b1 :: b2 :: b3 :: b4 :: rest =>
    (b0 * 16 + b1 * 8 + b2 * 4 + b3 * 2 + b4) :: bitsToFes rest
| _ => []

/-- Eight big-endian bits to a byte, across the list; a short trailing
group is dropped. -/
def bitsToBytes : List Nat → List Nat
| b0 :: b1 :: b2 :: b3 :: b4 :: b5 :: b6 :: b7 :: rest =>
    (((((((b0 * 2 + b1) * 2 + b2) * 2 + b3) * 2 + b4) * 2 + b5) * 2 + b6) * 2 + b7)
      :: bitsToBytes rest
| _ => []

/-- Modelled from the spec: `convertbits(8→5)` with zero padding of the
trailing group, as the crate's encoder performs it. -/
def conv8to5 (data : List Nat) : List Nat :=
  let bits := data.flatMap byteBits
  bitsToFes (bits ++ List.replicate ((5 - bits.length % 5) % 5) 0)

/-- Modelled from the spec: `convertbits(5→8)` without padding, as the
crate's decoding byte iterator realizes it — leftover bits are
dropped. -/
def conv5to8 (fes : List Nat) : List Nat :=
  bitsToBytes (fes.flatMap feBits)

/-- Modelled from the spec: the crate's `bech32::encode` under checksum
constant `const`: HRP, the `'1'` separator, the 5-bit data symbols, six
checksum symbols (the crate's code-length limits are not modelled). -/
def bech32_encode (hrp : List Char) (const : Nat) (data : List Nat) : List Char :=
  let d5 := conv8to5 data
  let cs := bech32CreateChecksum hrp d5 const
  hrp ++ '1' :: (d5 ++ cs).map (fun d => bech32Charset.getD d '?')

/-- Split a string at its LAST `'1'` (the crate's separator search). -/
def splitLastOne : List Char → Option (List Char × List Char)
| [] => none
| c :: cs =>
    match splitLastOne cs with
    | some (h, t) => some (c :: h, t)
    | none => if c == '1' then some ([], cs) else none

/-- Modelled from the spec: the crate's `bech32::decode` on an
all-lowercase string — split at the last `'1'`, nonempty HRP, at least
six data symbols, all data symbols in the charset, and the polymod over
the expanded HRP and data verifying under either variant's constant
(the crate accepts both; src/codec/bech32.rs disambiguates by
re-encoding).  The crate's HRP character-range and length limits are
not modelled. -/
def bech32_crate_decode (s : List Char) : Option (List Char × List Nat) :=
  match splitLastOne s with
  | none => none
  | some (hrp, rest) =>
      if hrp = [] then none
      else if rest.length < 6 then none
      else
        match rest.mapM (fun c => bech32Charset.findIdx? (fun x => x == c)) with
        | none => none
        | some values =>
            let pm := bech32Polymod (bech32HrpExpand hrp ++ values)
            if pm == BECH32_CONST || pm == BECH32M_CONST then
              some (hrp, conv5to8 (values.take (values.length - 6)))
            else none

/-- src/codec/bech32.rs `decode_bech32_strict` (`to_lowercase` is
modelled by the ASCII `Char.toLower`, which agrees on ASCII input). -/
def decode_bech32_strict (input : List Char) (mode : Mode) (is_m : Bool) :
    Except MbaseError (List Nat) :=
  let cleaned := clean_for_mode input mode
  let low := cleaned.map Char.toLower
  match bech32_crate_decode low with
  | none => .error .ChecksumMismatch
  | some (hrp, data) =>
      let reencoded :=
        bech32_encode hrp (if is_m then BECH32M_CONST else BECH32_CONST) data
      if reencoded.map Char.toLower == low then .ok data
      else .error .ChecksumMismatch

/-- Known-answer test pinning the bech32 model: the two variants'
encodings of the byte `0x48` under HRP `"data"` (checked against the
BIP-173 reference implementation). -/
theorem bech32_encode_kat :
    bech32_encode "data".data BECH32_CONST [72] = "data1fq0pdpje".data ∧
    bech32_encode "data".data BECH32M_CONST [72] = "data1fq6aadhm".data := by
  decide

/- ----------------------------------------------------------------
Claim C6 — exit codes
---------------------------------------------------------------- -/

/-- C6 counterexample: `InvalidInput` and `InvalidCharacter` are
different error kinds of the closed taxonomy, yet src/error.rs
`exit_code` maps both to process exit code 10, so the kinds do NOT all
get distinct exit codes. -/
theorem C6_counterexample :
    (MbaseError.InvalidInput "x").exit_code.code =
      (MbaseError.InvalidCharacter '!' 0).exit_code.code ∧
    (MbaseError.InvalidInput "x").kind ≠ (MbaseError.InvalidCharacter '!' 0).kind := by
  constructor
  · rfl
  · decide

/-- C6 (amended): the exit-code mapping of src/error.rs collapses the
four input-format kinds (InvalidInput, InvalidCharacter, InvalidLength,
InvalidPadding) onto exit code 10, while ChecksumMismatch, IoError and
UnsupportedCodec receive the distinct codes 11, 12 and 13; distinct
`ExitCode` values always have distinct numeric codes. -/
theorem C6_exit_code_mapping :
    (∀ m, (MbaseError.InvalidInput m).exit_code.code = 10) ∧
    (∀ c p, (MbaseError.InvalidCharacter c p).exit_code.code = 10) ∧
    (∀ e a m, (MbaseError.InvalidLength e a m).exit_code.code = 10) ∧
    (∀ m, (MbaseError.InvalidPadding m).exit_code.code = 10) ∧
    MbaseError.ChecksumMismatch.exit_code.code = 11 ∧
    (∀ m, (MbaseError.Io m).exit_code.code = 12) ∧
    (∀ n, (MbaseError.UnsupportedCodec n).exit_code.code = 13) ∧
    (∀ x y : ExitCode, x.code = y.code → x = y) := by
  refine ⟨fun m => rfl, fun c p => rfl, fun e a m => rfl, fun m => rfl, rfl,
    fun m => rfl, fun n => rfl, ?_⟩
  intro x y h
  cases x <;> cases y <;> simp_all [ExitCode.code]

/-- Witness for C6's amended mapping at concrete values. -/
theorem C6_witness :
    (MbaseError.InvalidPadding "pad").exit_code.code = 10 ∧
    ExitCode.IoError = ExitCode.IoError :=
  ⟨C6_exit_code_mapping.2.2.2.1 "pad",
   C6_exit_code_mapping.2.2.2.2.2.2.2 ExitCode.IoError ExitCode.IoError rfl⟩

/- ----------------------------------------------------------------
Claim C8 — base45 vectors and the 1-mod-3 length rule
---------------------------------------------------------------- -/

/-- The normalization stage of src/codec/base45.rs `decode_base45`
(normalize whitespace per mode, then uppercase under Lenient), factored
out so the length rule can be stated over the normalized text. -/
def base45_normalize (input : List Char) (mode : Mode) : List Char :=
  let cleaned := clean_for_mode input mode
  match mode with
  | Mode.Strict => cleaned
  | Mode.Lenient => cleaned.map Char.toUpper

/-- C8 counterexample: `"#"` has normalized length 1 ≡ 1 (mod 3), but
decoding fails with `InvalidCharacter`, not with the `InvalidInput`
kind — character validation runs before the length check. -/
theorem C8_counterexample :
    (base45_normalize ['#'] Mode.Strict).length % 3 = 1 ∧
    decode_base45 ['#'] Mode.Strict = .error (.InvalidCharacter '#' 0) ∧
    (MbaseError.InvalidCharacter '#' 0).kind ≠ ErrorKind.InvalidInput := by
  refine ⟨rfl, by decide, by decide⟩

/-- C8 (amended): base45 `encode([0x41,0x42]) = "BB8"`; and decoding any
string whose normalized form consists of alphabet symbols and has length
1 mod 3 fails with the `InvalidInput` kind (carrying the length message);
strings with out-of-alphabet symbols fail earlier with
`InvalidCharacter`. -/
theorem C8_base45_length_rule :
    encode_base45 [65, 66] = "BB8".data ∧
    ∀ (input : List Char) (mode : Mode),
      (∀ c ∈ base45_normalize input mode, (char_to_val c).isSome) →
      (base45_normalize input mode).length % 3 = 1 →
      decode_base45 input mode = .error (.InvalidInput
        ("base45 length " ++ toString (base45_normalize input mode).length ++
          " invalid (cannot be 1 mod 3)")) := by
  refine ⟨by decide, ?_⟩
  intro input mode hsome hlen
  have hnne : base45_normalize input mode ≠ [] := by
    intro h
    rw [h] at hlen
    simp at hlen
  cases mode with
  | Strict =>
    have hE : input.isEmpty = false := by
      cases h : input with
      | nil => exact absurd h hnne
      | cons a l => rfl
    have hvals := base45_vals_ok input hsome 0
    simp only [decode_base45, clean_for_mode, hE, Bool.false_eq_true, if_false, hvals,
      List.length_map]
    rw [if_pos (show (input.length % 3 == 1) = true by
      simp only [beq_iff_eq]; exact hlen)]
    rfl
  | Lenient =>
    have hcne : clean_for_mode input Mode.Lenient ≠ [] := by
      intro h
      apply hnne
      show (clean_for_mode input Mode.Lenient).map Char.toUpper = []
      rw [h]
      rfl
    have hE : (clean_for_mode input Mode.Lenient).isEmpty = false := by
      cases h : clean_for_mode input Mode.Lenient with
      | nil => exact absurd h hcne
      | cons a l => rfl
    have hvals :=
      base45_vals_ok ((clean_for_mode input Mode.Lenient).map Char.toUpper) hsome 0
    simp only [decode_base45, hE, Bool.false_eq_true, if_false, hvals, List.length_map]
    rw [if_pos (show ((clean_for_mode input Mode.Lenient).length % 3 == 1) = true by
      simp only [beq_iff_eq]
      have : (base45_normalize input Mode.Lenient).length =
          (clean_for_mode input Mode.Lenient).length := by
        show ((clean_for_mode input Mode.Lenient).map Char.toUpper).length = _
        rw [List.length_map]
      rw [← this]
      exact hlen)]
    show Except.error (MbaseError.InvalidInput
        ("base45 length " ++ toString (clean_for_mode input Mode.Lenient).length ++
          " invalid (cannot be 1 mod 3)")) = _
    have : (base45_normalize input Mode.Lenient).length =
        (clean_for_mode input Mode.Lenient).length := by
      show ((clean_for_mode input Mode.Lenient).map Char.toUpper).length = _
      rw [List.length_map]
    rw [this]

/-- Witness for C8's length rule at the concrete string `"0000"`. -/
theorem C8_witness :
    decode_base45 "0000".data Mode.Strict =
      .error (.InvalidInput ("base45 length " ++
        toString (base45_normalize "0000".data Mode.Strict).length ++
        " invalid (cannot be 1 mod 3)")) :=
  C8_base45_length_rule.2 "0000".data Mode.Strict (by decide) (by decide)

/- ----------------------------------------------------------------
Claim C10 — Base58Check short-input rule
---------------------------------------------------------------- -/

/-- C10: when the base58 decoding of the cleaned input yields fewer
than 4 bytes, Base58Check decode fails with the InvalidInput kind and
the message "input too short for checksum" — before any checksum
comparison; the empty string base58-decodes to zero bytes and hits the
same path. -/
theorem C10_short_checksum :
    (∀ (input : List Char) (mode : Mode) (decoded : List Nat),
      bs58_decode (clean_for_mode input mode) = .ok decoded →
      decoded.length < 4 →
      base58check_decode input mode =
        .error (.InvalidInput "input too short for checksum")) ∧
    bs58_decode [] = .ok [] ∧
    base58check_decode [] Mode.Strict =
      .error (.InvalidInput "input too short for checksum") := by
  refine ⟨?_, by decide, by decide⟩
  intro input mode decoded hdec hlen
  simp only [base58check_decode, hdec]
  rw [if_pos hlen]

/-- Witness for C10 at the concrete input `"1"` (decodes to one zero
byte). -/
theorem C10_witness :
    base58check_decode ['1'] Mode.Strict =
      .error (.InvalidInput "input too short for checksum") :=
  C10_short_checksum.1 ['1'] Mode.Strict [0] (by decide) (by decide)

/- ----------------------------------------------------------------
Claim C1 — round-trip
---------------------------------------------------------------- -/

/-- C1 counterexample: TapCode is a registered codec and byte 0x4B
(`'K'`) is in its domain (spec §4.6 explicitly maps K), yet
`decode(encode([0x4B]), Strict)` returns 0x43 (`'C'`): K is folded onto
cell 13 by src/codec/unicode_tap.rs, so the round-trip is not the
identity for every registered codec. -/
theorem C1_counterexample :
    tap_encode [75] = .ok ['1', '3'] ∧
    tap_decode ['1', '3'] Mode.Strict = .ok [67] ∧
    (67 : Nat) ≠ 75 := by
  refine ⟨by decide, by decide, by decide⟩

/-- C1 (amended): the strict round-trip `decode(encode(b), Strict) = b`
holds for the positional big-integer family (base36 lower and upper,
base37, base62, base58btc, base92) and for base45 on every byte
sequence, but for TapCode only on its lossless sub-domain: nonempty
sequences of uppercase ASCII letters other than `'K'`. -/
theorem C1_roundtrip :
    (∀ input : List Nat, (∀ b ∈ input, b < 256) →
      decode_base36 (encode_base36 input LOWER_ALPHABET) Mode.Strict true = .ok input ∧
      decode_base36 (encode_base36 input UPPER_ALPHABET) Mode.Strict false = .ok input ∧
      decode_base37 (encode_base37 input) Mode.Strict = .ok input ∧
      decode_base62 (encode_base62 input) Mode.Strict = .ok input ∧
      bs58_decode (bs58_encode input) = .ok input ∧
      (base92_encode input).bind (fun s => base92_decode s Mode.Strict) = .ok input ∧
      decode_base45 (encode_base45 input) Mode.Strict = .ok input) ∧
    (∀ input : List Nat, input ≠ [] → (∀ b ∈ input, 65 ≤ b ∧ b ≤ 90 ∧ b ≠ 75) →
      (tap_encode input).bind (fun s => tap_decode s Mode.Strict) = .ok input) := by
  refine ⟨fun input hin => ⟨base36lower_roundtrip input hin,
    base36upper_roundtrip input hin, base37_roundtrip input hin,
    base62_roundtrip input hin, bs58_roundtrip input hin,
    base92_roundtrip input hin, base45_roundtrip input hin⟩, tap_roundtrip⟩

/-- Witness for C1 at concrete inputs. -/
theorem C1_witness :
    decode_base36 (encode_base36 [0, 255] LOWER_ALPHABET) Mode.Strict true =
      .ok [0, 255] ∧
    (tap_encode [72, 73]).bind (fun s => tap_decode s Mode.Strict) = .ok [72, 73] :=
  ⟨(C1_roundtrip.1 [0, 255] (by decide)).1,
   C1_roundtrip.2 [72, 73] (by decide) (by decide)⟩

/- ----------------------------------------------------------------
Claim C3 — mode monotonicity
---------------------------------------------------------------- -/

theorem char_contains_mem {l : List Char} {c : Char} (h : l.contains c = true) :
    c ∈ l := by
  simpa using h

theorem firstNotIn_none_valid : ∀ (s alpha : List Char) (pos : Nat),
    firstNotIn s alpha pos = none → ∀ c ∈ s, alpha.contains c = true
| [], _, _, _ => by simp
| c :: cs, alpha, pos, h => by
    intro x hx
    rw [firstNotIn] at h
    by_cases hc : alpha.contains c = true
    · rw [if_pos hc] at h
      rcases List.mem_cons.1 hx with rfl | hx'
      · exact hc
      · exact firstNotIn_none_valid cs alpha (pos + 1) h x hx'
    · rw [if_neg hc] at h
      simp at h

theorem base36lower_char_props :
    (∀ c ∈ LOWER_ALPHABET, isAsciiWhitespace c = false) ∧
    (∀ c ∈ LOWER_ALPHABET, Char.toLower c = c) := by
  constructor <;> decide

/-- On text made only of lower-alphabet symbols, Lenient normalization
(whitespace filter, lowercase fold) is the identity, so base36lower's
two modes decode identically. -/
theorem decode_base36_lenient_eq_strict (t : List Char)
    (hvalid : ∀ c ∈ t, LOWER_ALPHABET.contains c = true) :
    decode_base36 t Mode.Lenient true = decode_base36 t Mode.Strict true := by
  have hfilter : t.filter (fun c => !(isAsciiWhitespace c)) = t := by
    apply List.filter_eq_self.2
    intro c hc
    have := base36lower_char_props.1 c (char_contains_mem (hvalid c hc))
    simp [this]
  have hlower : t.map Char.toLower = t := by
    conv_rhs => rw [← List.map_id t]
    apply List.map_congr_left
    intro c hc
    exact base36lower_char_props.2 c (char_contains_mem (hvalid c hc))
  simp only [decode_base36, clean_for_mode, hfilter, hlower, if_true]

/-- A successful strict base36lower decode means the input was empty or
entirely lower-alphabet symbols. -/
theorem decode_base36_strict_ok_cases (t : List Char) (b : List Nat)
    (h : decode_base36 t Mode.Strict true = .ok b) :
    t = [] ∨ ∀ c ∈ t, LOWER_ALPHABET.contains c = true := by
  by_cases ht : t = []
  · exact Or.inl ht
  · right
    have hE : t.isEmpty = false := by
      cases h2 : t with
      | nil => exact absurd h2 ht
      | cons a l => rfl
    simp only [decode_base36, clean_for_mode, hE, Bool.false_eq_true, if_false,
      if_true] at h
    rcases hf : firstNotIn t LOWER_ALPHABET 0 with _ | ⟨pos, ch⟩
    · exact firstNotIn_none_valid t LOWER_ALPHABET 0 hf
    · rw [hf] at h
      simp at h

/-- C3 counterexample: base45's Lenient mode is NOT an extension of
Strict.  Strict decoding of `"  0"` succeeds (space is a base45 alphabet
symbol), but Lenient first strips the spaces, leaving the length-1
string `"0"`, which is rejected by the 1-mod-3 length rule. -/
theorem C3_counterexample :
    decode_base45 "  0".data Mode.Strict = .ok [6, 120] ∧
    decode_base45 "  0".data Mode.Lenient =
      .error (.InvalidInput "base45 length 1 invalid (cannot be 1 mod 3)") := by
  refine ⟨by decide, by decide⟩

/-- C3 (amended): mode monotonicity is codec-dependent.  For base36lower
it holds — any strict-decodable text decodes identically under Lenient —
and Lenient strictly extends Strict (`"3YUD78MN"` is case-folded and
accepted by Lenient but rejected by Strict); base45 (see the
counterexample) violates it. -/
theorem C3_mode_monotonic :
    (∀ (t : List Char) (b : List Nat),
      decode_base36 t Mode.Strict true = .ok b →
      decode_base36 t Mode.Lenient true = .ok b) ∧
    decode_base36 "3YUD78MN".data Mode.Lenient true = .ok [72, 101, 108, 108, 111] ∧
    decode_base36 "3YUD78MN".data Mode.Strict true =
      .error (.InvalidCharacter 'Y' 1) := by
  refine ⟨?_, by decide, by decide⟩
  intro t b h
  rcases decode_base36_strict_ok_cases t b h with rfl | hvalid
  · have h' : (Except.ok [] : Except MbaseError (List Nat)) = Except.ok b := h
    have hb : ([] : List Nat) = b := Except.ok.inj h'
    subst hb
    rfl
  · rw [decode_base36_lenient_eq_strict t hvalid]
    exact h

/-- Witness for C3's monotonicity at a concrete strict-decodable text. -/
theorem C3_witness :
    decode_base36 "3yud78mn".data Mode.Lenient true = .ok [72, 101, 108, 108, 111] :=
  C3_mode_monotonic.1 "3yud78mn".data [72, 101, 108, 108, 111] (by decide)

/- ----------------------------------------------------------------
Claim C2 — leading-zero fidelity
---------------------------------------------------------------- -/

theorem encode_positional_all_zeros (B : Nat) (alpha : List Char) (L : Nat) :
    encode_positional B alpha (List.replicate L 0) =
      List.replicate L (alphaChar alpha 0) := by
  cases L with
  | zero => rfl
  | succ n =>
    have hne : List.replicate (n + 1) (0 : Nat) ≠ [] := by simp
    have h1 : encodeBigDigits B (List.replicate (n + 1) 0) = [] := by
      rw [show (List.replicate (n + 1) (0 : Nat)) = List.replicate (n + 1) 0 ++ []
        from (List.append_nil _).symm, encodeBigDigits_zero_prefix]
      rfl
    have h2 : (List.replicate (n + 1) (0 : Nat)).takeWhile (fun b => b == 0) =
        List.replicate (n + 1) (0 : Nat) := by
      simpa using takeWhile_replicate_append (fun b : Nat => b == 0) 0 (by decide)
        (n + 1) ([] : List Nat)
    rw [encode_positional_shape B alpha _ hne, h1, h2]
    simp

theorem base92_encode_all_zeros (L : Nat) :
    base92_encode (List.replicate L 0) = .ok (List.replicate L '!') := by
  cases L with
  | zero => rfl
  | succ n =>
    have hE : (List.replicate (n + 1) (0 : Nat)).isEmpty = false := rfl
    have h2 : (List.replicate (n + 1) (0 : Nat)).takeWhile (fun b => b == 0) =
        List.replicate (n + 1) (0 : Nat) := by
      simpa using takeWhile_replicate_append (fun b : Nat => b == 0) 0 (by decide)
        (n + 1) ([] : List Nat)
    simp only [base92_encode, hE, Bool.false_eq_true, if_false, h2,
      List.length_replicate]
    rw [if_pos (by simp)]
    rw [show alphaChar BASE92_ALPHABET 0 = '!' from by decide]

/-- C2: prepending k > 0 zero bytes changes the encoding of every codec
of the positional family, the extended input still round-trips exactly,
and an all-zero input of length L encodes to exactly L copies of the
zero symbol (`'0'`, `'1'` for base58btc, `'!'` for base92). -/
theorem C2_leading_zero_fidelity :
    (∀ (k : Nat) (rest : List Nat), 0 < k → (∀ b ∈ rest, b < 256) →
      (encode_base36 (List.replicate k 0 ++ rest) LOWER_ALPHABET ≠
          encode_base36 rest LOWER_ALPHABET ∧
        decode_base36 (encode_base36 (List.replicate k 0 ++ rest) LOWER_ALPHABET)
          Mode.Strict true = .ok (List.replicate k 0 ++ rest)) ∧
      (encode_base37 (List.replicate k 0 ++ rest) ≠ encode_base37 rest ∧
        decode_base37 (encode_base37 (List.replicate k 0 ++ rest)) Mode.Strict =
          .ok (List.replicate k 0 ++ rest)) ∧
      (encode_base62 (List.replicate k 0 ++ rest) ≠ encode_base62 rest ∧
        decode_base62 (encode_base62 (List.replicate k 0 ++ rest)) Mode.Strict =
          .ok (List.replicate k 0 ++ rest)) ∧
      (bs58_encode (List.replicate k 0 ++ rest) ≠ bs58_encode rest ∧
        bs58_decode (bs58_encode (List.replicate k 0 ++ rest)) =
          .ok (List.replicate k 0 ++ rest)) ∧
      (base92_encode (List.replicate k 0 ++ rest) ≠ base92_encode rest ∧
        (base92_encode (List.replicate k 0 ++ rest)).bind
          (fun s => base92_decode s Mode.Strict) = .ok (List.replicate k 0 ++ rest))) ∧
    (∀ L : Nat,
      encode_base36 (List.replicate L 0) LOWER_ALPHABET = List.replicate L '0' ∧
      encode_base37 (List.replicate L 0) = List.replicate L '0' ∧
      encode_base62 (List.replicate L 0) = List.replicate L '0' ∧
      bs58_encode (List.replicate L 0) = List.replicate L '1' ∧
      base92_encode (List.replicate L 0) = .ok (List.replicate L '!') ∧
      decode_base36 (List.replicate L '0') Mode.Strict true =
        .ok (List.replicate L 0)) := by
  constructor
  · intro k rest hk hrest
    have hvalid : ∀ b ∈ List.replicate k 0 ++ rest, b < 256 := by
      intro b hb
      rcases List.mem_append.1 hb with h | h
      · have := List.eq_of_mem_replicate h
        omega
      · exact hrest b h
    have hne : List.replicate k 0 ++ rest ≠ rest := by
      intro h
      have := congrArg List.length h
      simp only [List.length_append, List.length_replicate] at this
      omega
    refine ⟨⟨?_, base36lower_roundtrip _ hvalid⟩, ⟨?_, base37_roundtrip _ hvalid⟩,
      ⟨?_, base62_roundtrip _ hvalid⟩, ⟨?_, bs58_roundtrip _ hvalid⟩,
      ⟨?_, base92_roundtrip _ hvalid⟩⟩
    · intro heq
      have h1 := base36lower_roundtrip (List.replicate k 0 ++ rest) hvalid
      have h2 := base36lower_roundtrip rest hrest
      rw [heq, h2] at h1
      exact hne (Except.ok.inj h1).symm
    · intro heq
      have h1 := base37_roundtrip (List.replicate k 0 ++ rest) hvalid
      have h2 := base37_roundtrip rest hrest
      rw [heq, h2] at h1
      exact hne (Except.ok.inj h1).symm
    · intro heq
      have h1 := base62_roundtrip (List.replicate k 0 ++ rest) hvalid
      have h2 := base62_roundtrip rest hrest
      rw [heq, h2] at h1
      exact hne (Except.ok.inj h1).symm
    · intro heq
      have h1 := bs58_roundtrip (List.replicate k 0 ++ rest) hvalid
      have h2 := bs58_roundtrip rest hrest
      rw [heq, h2] at h1
      exact hne (Except.ok.inj h1).symm
    · intro heq
      have h1 := base92_roundtrip (List.replicate k 0 ++ rest) hvalid
      have h2 := base92_roundtrip rest hrest
      rw [heq, h2] at h1
      exact hne (Except.ok.inj h1).symm
  · intro L
    have hz : ∀ b ∈ List.replicate L (0 : Nat), b < 256 := by
      intro b hb
      have := List.eq_of_mem_replicate hb
      omega
    have henc : encode_base36 (List.replicate L 0) LOWER_ALPHABET =
        List.replicate L '0' := by
      show encode_positional 36 LOWER_ALPHABET (List.replicate L 0) = _
      rw [encode_positional_all_zeros,
        show alphaChar LOWER_ALPHABET 0 = '0' from by decide]
    refine ⟨henc, ?_, ?_, ?_, base92_encode_all_zeros L, ?_⟩
    · show encode_positional 37 BASE37_ALPHABET (List.replicate L 0) = _
      rw [encode_positional_all_zeros,
        show alphaChar BASE37_ALPHABET 0 = '0' from by decide]
    · show encode_positional 62 BASE62_ALPHABET (List.replicate L 0) = _
      rw [encode_positional_all_zeros,
        show alphaChar BASE62_ALPHABET 0 = '0' from by decide]
    · show encode_positional 58 BTC_ALPHABET (List.replicate L 0) = _
      rw [encode_positional_all_zeros,
        show alphaChar BTC_ALPHABET 0 = '1' from by decide]
    · have hrt := base36lower_roundtrip (List.replicate L 0) hz
      rw [henc] at hrt
      exact hrt

/-- Witness for C2 at concrete inputs. -/
theorem C2_witness :
    encode_base36 (List.replicate 2 0 ++ [255]) LOWER_ALPHABET ≠
      encode_base36 [255] LOWER_ALPHABET ∧
    bs58_encode (List.replicate 3 0) = List.replicate 3 '1' :=
  ⟨((C2_leading_zero_fidelity.1 2 [255] (by decide) (by decide)).1).1,
   (C2_leading_zero_fidelity.2 3).2.2.2.1⟩

/- ----------------------------------------------------------------
Bech32 support lemmas
---------------------------------------------------------------- -/

theorem splitLastOne_none (l : List Char) (h : '1' ∉ l) : splitLastOne l = none := by
  induction l with
  | nil => rfl
  | cons c cs ih =>
    have hc : ¬((c == '1') = true) := by
      simp only [beq_iff_eq]
      intro e
      exact h (e ▸ List.mem_cons_self c cs)
    have hcs : '1' ∉ cs := fun m => h (List.mem_cons_of_mem _ m)
    simp only [splitLastOne, ih hcs]
    rw [if_neg hc]

theorem splitLastOne_append (pre syms : List Char) (h : '1' ∉ syms) :
    splitLastOne (pre ++ '1' :: syms) = some (pre, syms) := by
  induction pre with
  | nil =>
    simp only [List.nil_append, splitLastOne, splitLastOne_none syms h]
    exact if_pos rfl
  | cons c cs ih =>
    simp only [List.cons_append, splitLastOne, List.append_eq, ih]

theorem bech32_tables :
    (∀ d : Nat, d < 32 → Char.toLower (bech32Charset.getD d '?') =
      bech32Charset.getD d '?') ∧
    (∀ d : Nat, d < 32 → bech32Charset.getD d '?' ≠ '1') ∧
    (∀ d : Nat, d < 32 → ∀ e : Nat, e < 32 →
      bech32Charset.getD d '?' = bech32Charset.getD e '?' → d = e) := by
  refine ⟨by decide, by decide, by decide⟩

theorem bitsToFes_lt : ∀ (l : List Nat), (∀ b ∈ l, b ≤ 1) →
    ∀ x ∈ bitsToFes l, x < 32
| [], _ => by intro x hx; simp [bitsToFes] at hx
| [_], _ => by intro x hx; simp [bitsToFes] at hx
| [_, _], _ => by intro x hx; simp [bitsToFes] at hx
| [_, _, _], _ => by intro x hx; simp [bitsToFes] at hx
| [_, _, _, _], _ => by intro x hx; simp [bitsToFes] at hx
| b0 :: b1 :: b2 :: b3 :: b4 :: rest, h => by
    intro x hx
    rw [show bitsToFes (b0 :: b1 :: b2 :: b3 :: b4 :: rest) =
      (b0 * 16 + b1 * 8 + b2 * 4 + b3 * 2 + b4) :: bitsToFes rest from rfl] at hx
    rcases List.mem_cons.1 hx with rfl | hx'
    · have h0 := h b0 (by simp)
      have h1 := h b1 (by simp)
      have h2 := h b2 (by simp)
      have h3 := h b3 (by simp)
      have h4 := h b4 (by simp)
      omega
    · exact bitsToFes_lt rest (fun b hb => h b (by simp [hb])) x hx'

theorem conv8to5_lt (data : List Nat) : ∀ x ∈ conv8to5 data, x < 32 := by
  apply bitsToFes_lt
  intro b hb
  rcases List.mem_append.1 hb with h | h
  · rcases List.mem_flatMap.1 h with ⟨a, _, hb2⟩
    rcases List.mem_map.1 hb2 with ⟨i, _, rfl⟩
    exact Nat.and_le_right
  · have := List.eq_of_mem_replicate h
    omega

theorem bech32CreateChecksum_lt (hrp : List Char) (data : List Nat) (c : Nat) :
    ∀ x ∈ bech32CreateChecksum hrp data c, x < 32 := by
  intro x hx
  simp only [bech32CreateChecksum, List.mem_map] at hx
  rcases hx with ⟨i, _, rfl⟩
  exact Nat.lt_succ_of_le Nat.and_le_right

theorem xor_lt_2_30 (a b : Nat) (ha : a < 1073741824) (hb : b < 1073741824) :
    a ^^^ b < 1073741824 := by
  have h : (1073741824 : Nat) = 2 ^ 30 := by norm_num
  rw [h] at ha hb ⊢
  exact Nat.xor_lt_two_pow ha hb

theorem ite_xor_lt (p : Prop) [Decidable p] (c k : Nat) (hc : c < 1073741824)
    (hk : k < 1073741824) : (if p then c ^^^ k else c) < 1073741824 := by
  by_cases h : p
  · rw [if_pos h]
    exact xor_lt_2_30 c k hc hk
  · rw [if_neg h]
    exact hc

theorem bech32PolymodStep_lt (chk v : Nat) (hv : v < 32) :
    bech32PolymodStep chk v < 1073741824 := by
  simp only [bech32PolymodStep]
  refine ite_xor_lt _ _ _ (ite_xor_lt _ _ _ (ite_xor_lt _ _ _ (ite_xor_lt _ _ _
    (ite_xor_lt _ _ _ ?_ (by norm_num)) (by norm_num)) (by norm_num)) (by norm_num))
    (by norm_num)
  apply xor_lt_2_30
  · have h : chk &&& 0x1ffffff ≤ 0x1ffffff := Nat.and_le_right
    omega
  · omega

theorem bech32Polymod_lt_aux : ∀ (l : List Nat) (init : Nat),
    (∀ v ∈ l, v < 32) → init < 1073741824 →
    l.foldl bech32PolymodStep init < 1073741824
| [], _, _, hi => hi
| v :: rest, init, h, _ => by
    rw [List.foldl_cons]
    exact bech32Polymod_lt_aux rest _ (fun x hx => h x (List.mem_cons_of_mem _ hx))
      (bech32PolymodStep_lt init v (h v (List.mem_cons_self _ _)))

theorem bech32Polymod_lt (values : List Nat) (h : ∀ v ∈ values, v < 32) :
    bech32Polymod values < 1073741824 :=
  bech32Polymod_lt_aux values 1 h (by norm_num)

/-- Six 5-bit checksum symbols determine a number below `2^30`. -/
theorem checksum_syms_inj (a b : Nat) (ha : a < 1073741824) (hb : b < 1073741824)
    (h : (List.range 6).map (fun i => (a >>> (5 * (5 - i))) &&& 31) =
      (List.range 6).map (fun i => (b >>> (5 * (5 - i))) &&& 31)) : a = b := by
  have conv : ∀ (x k : Nat), (x >>> k) &&& 31 = x / 2 ^ k % 32 := by
    intro x k
    rw [Nat.shiftRight_eq_div_pow]
    have h31 : (31 : Nat) = 2 ^ 5 - 1 := by norm_num
    rw [h31, Nat.and_pow_two_sub_one_eq_mod]
  rw [show List.range 6 = [0, 1, 2, 3, 4, 5] from rfl] at h
  simp only [List.map_cons, List.map_nil, List.cons.injEq, and_true] at h
  obtain ⟨h0, h1, h2, h3, h4, h5⟩ := h
  rw [conv, conv] at h0 h1 h2 h3 h4 h5
  norm_num at h0 h1 h2 h3 h4 h5
  omega

theorem map_charset_inj : ∀ (l1 l2 : List Nat), (∀ v ∈ l1, v < 32) →
    (∀ v ∈ l2, v < 32) →
    l1.map (fun d => bech32Charset.getD d '?') =
      l2.map (fun d => bech32Charset.getD d '?') → l1 = l2
| [], [], _, _, _ => rfl
| [], _ :: _, _, _, h => by simp at h
| _ :: _, [], _, _, h => by simp at h
| a :: l1, b :: l2, h1, h2, h => by
    simp only [List.map_cons, List.cons.injEq] at h
    have hab := bech32_tables.2.2 a (h1 a (List.mem_cons_self _ _))
      b (h2 b (List.mem_cons_self _ _)) h.1
    rw [hab, map_charset_inj l1 l2 (fun v hv => h1 v (List.mem_cons_of_mem _ hv))
      (fun v hv => h2 v (List.mem_cons_of_mem _ hv)) h.2]

theorem bech32_syms_facts (vals : List Nat) (h : ∀ v ∈ vals, v < 32) :
    (vals.map (fun d => bech32Charset.getD d '?')).map Char.toLower =
      vals.map (fun d => bech32Charset.getD d '?') ∧
    '1' ∉ vals.map (fun d => bech32Charset.getD d '?') := by
  constructor
  · rw [List.map_map]
    apply List.map_congr_left
    intro v hv
    exact bech32_tables.1 v (h v hv)
  · intro hmem
    rcases List.mem_map.1 hmem with ⟨v, hv, he⟩
    exact bech32_tables.2.1 v (h v hv) he

/-- All symbol values rendered by `bech32_encode` are below 32. -/
theorem bech32_encode_vals_lt (const : Nat) (data : List Nat) :
    ∀ v ∈ conv8to5 data ++
      bech32CreateChecksum "data".data (conv8to5 data) const, v < 32 := by
  intro v hv
  rcases List.mem_append.1 hv with h | h
  · exact conv8to5_lt data v h
  · exact bech32CreateChecksum_lt _ _ _ v h

/-- The codec's encodings (HRP `"data"`) are already lowercase. -/
theorem bech32_encode_data_lower (const : Nat) (data : List Nat) :
    (bech32_encode "data".data const data).map Char.toLower =
      bech32_encode "data".data const data := by
  conv_rhs => rw [← List.map_id (bech32_encode "data".data const data)]
  apply List.map_congr_left
  intro c hc
  have hcases : c ∈ "data".data ∨ c = '1' ∨
      c ∈ (conv8to5 data ++ bech32CreateChecksum "data".data (conv8to5 data)
        const).map (fun d => bech32Charset.getD d '?') := by
    rcases List.mem_append.1 hc with h | h
    · exact Or.inl h
    · rcases List.mem_cons.1 h with rfl | h2
      · exact Or.inr (Or.inl rfl)
      · exact Or.inr (Or.inr h2)
  rcases hcases with h | rfl | h
  · have hall : ∀ x ∈ "data".data, Char.toLower x = x := by decide
    exact hall c h
  · rfl
  · rcases List.mem_map.1 h with ⟨v, hv, rfl⟩
    exact bech32_tables.1 v (bech32_encode_vals_lt const data v hv)

/-- Every failure of src/codec/bech32.rs `decode_bech32_strict` is
`ChecksumMismatch`. -/
theorem decode_bech32_strict_error (input : List Char) (mode : Mode) (is_m : Bool)
    (e : MbaseError) (h : decode_bech32_strict input mode is_m = .error e) :
    e = .ChecksumMismatch := by
  rcases hd : bech32_crate_decode ((clean_for_mode input mode).map Char.toLower)
    with _ | ⟨hrp, data⟩
  · simp only [decode_bech32_strict, hd] at h
    exact (Except.error.inj h).symm
  · simp only [decode_bech32_strict, hd] at h
    by_cases hc : ((bech32_encode hrp (if is_m then BECH32M_CONST else BECH32_CONST)
        data).map Char.toLower == (clean_for_mode input mode).map Char.toLower) = true
    · rw [if_pos hc] at h
      simp at h
    · rw [if_neg hc] at h
      exact (Except.error.inj h).symm

/-- Success of `decode_bech32_strict` is exactly: the crate decode of
the lowercased cleaned input succeeds, and re-encoding under the
claimed variant reproduces it (after case folding). -/
theorem decode_bech32_strict_ok_iff (input : List Char) (mode : Mode) (is_m : Bool)
    (data : List Nat) :
    decode_bech32_strict input mode is_m = .ok data ↔
      ∃ hrp, bech32_crate_decode ((clean_for_mode input mode).map Char.toLower) =
          some (hrp, data) ∧
        (bech32_encode hrp (if is_m then BECH32M_CONST else BECH32_CONST)
          data).map Char.toLower = (clean_for_mode input mode).map Char.toLower := by
  constructor
  · intro h
    rcases hd : bech32_crate_decode ((clean_for_mode input mode).map Char.toLower)
      with _ | ⟨hrp, d⟩
    · simp only [decode_bech32_strict, hd] at h
      simp at h
    · simp only [decode_bech32_strict, hd] at h
      by_cases hc : ((bech32_encode hrp (if is_m then BECH32M_CONST else BECH32_CONST)
          d).map Char.toLower == (clean_for_mode input mode).map Char.toLower) = true
      · rw [if_pos hc] at h
        have hdd : d = data := Except.ok.inj h
        subst hdd
        exact ⟨hrp, rfl, eq_of_beq hc⟩
      · rw [if_neg hc] at h
        simp at h
  · rintro ⟨hrp, hd, henc⟩
    simp only [decode_bech32_strict, hd]
    rw [if_pos (show ((bech32_encode hrp
        (if is_m then BECH32M_CONST else BECH32_CONST) data).map Char.toLower ==
        (clean_for_mode input mode).map Char.toLower) = true from beq_iff_eq.2 henc)]

/-- The heart of the variant split: if the crate decode of an encoding
under `cE` returned `(hrp, data)`, re-encoding under a different
constant `cD` can never reproduce the string. -/
theorem bech32_cross_core (cE cD : Nat) (hne : cE ≠ cD)
    (hcE : cE < 1073741824) (hcD : cD < 1073741824) (payload data : List Nat)
    (hrp : List Char)
    (hd : bech32_crate_decode (bech32_encode "data".data cE payload) =
      some (hrp, data)) :
    ((bech32_encode "data".data cD data).map Char.toLower ==
      bech32_encode "data".data cE payload) = false ∧ hrp = "data".data := by
  obtain ⟨_, h1nin⟩ := bech32_syms_facts _ (bech32_encode_vals_lt cE payload)
  have hsplit : splitLastOne (bech32_encode "data".data cE payload) =
      some ("data".data, (conv8to5 payload ++
        bech32CreateChecksum "data".data (conv8to5 payload) cE).map
          (fun d => bech32Charset.getD d '?')) :=
    splitLastOne_append _ _ h1nin
  have hcs_len : ∀ (d : List Nat) (c : Nat),
      (bech32CreateChecksum "data".data d c).length = 6 := by
    intro d c
    simp [bech32CreateChecksum]
  have hhrp : hrp = "data".data := by
    simp only [bech32_crate_decode, hsplit] at hd
    split at hd
    · simp at hd
    · split at hd
      · simp at hd
      · split at hd
        · simp at hd
        · split at hd
          · exact (congrArg Prod.fst (Option.some.inj hd)).symm
          · simp at hd
  refine ⟨?_, hhrp⟩
  by_contra hcontra
  rw [Bool.not_eq_false] at hcontra
  have heq := eq_of_beq hcontra
  rw [bech32_encode_data_lower] at heq
  have hsyms : (conv8to5 data ++
      bech32CreateChecksum "data".data (conv8to5 data) cD).map
        (fun d => bech32Charset.getD d '?') =
      (conv8to5 payload ++
        bech32CreateChecksum "data".data (conv8to5 payload) cE).map
        (fun d => bech32Charset.getD d '?') := by
    have h2 := List.append_cancel_left
      (show "data".data ++ ('1' :: (conv8to5 data ++
          bech32CreateChecksum "data".data (conv8to5 data) cD).map
            (fun d => bech32Charset.getD d '?')) =
        "data".data ++ ('1' :: (conv8to5 payload ++
          bech32CreateChecksum "data".data (conv8to5 payload) cE).map
            (fun d => bech32Charset.getD d '?')) from heq)
    exact (List.cons.inj h2).2
  have hvals := map_charset_inj _ _ (bech32_encode_vals_lt cD data)
    (bech32_encode_vals_lt cE payload) hsyms
  obtain ⟨hd5, hcs⟩ := List.append_inj' hvals (by rw [hcs_len, hcs_len])
  rw [hd5] at hcs
  have hexp : ∀ v ∈ bech32HrpExpand "data".data, v < 32 := by decide
  have hpm_lt : bech32Polymod (bech32HrpExpand "data".data ++
      (conv8to5 payload ++ [0, 0, 0, 0, 0, 0])) < 1073741824 := by
    apply bech32Polymod_lt
    intro v hv
    rcases List.mem_append.1 hv with h | h
    · exact hexp v h
    · rcases List.mem_append.1 h with h2 | h2
      · exact conv8to5_lt payload v h2
      · simp at h2
        omega
  have hpm_eq : bech32Polymod (bech32HrpExpand "data".data ++
      (conv8to5 payload ++ [0, 0, 0, 0, 0, 0])) ^^^ cD =
      bech32Polymod (bech32HrpExpand "data".data ++
        (conv8to5 payload ++ [0, 0, 0, 0, 0, 0])) ^^^ cE := by
    apply checksum_syms_inj _ _ (xor_lt_2_30 _ _ hpm_lt hcD) (xor_lt_2_30 _ _ hpm_lt hcE)
    have hcs' := hcs
    simp only [bech32CreateChecksum, List.append_assoc] at hcs'
    exact hcs'
  have : cD = cE := by
    calc cD = bech32Polymod _ ^^^ (bech32Polymod _ ^^^ cD) :=
          (Nat.xor_cancel_left _ _).symm
      _ = bech32Polymod _ ^^^ (bech32Polymod _ ^^^ cE) := by rw [hpm_eq]
      _ = cE := Nat.xor_cancel_left _ _
  exact hne this.symm

/-- Decoding a string produced under one variant with the other variant
always fails with `ChecksumMismatch`. -/
theorem bech32_cross_variant (is_m : Bool) (payload : List Nat) :
    decode_bech32_strict
      (bech32_encode "data".data (if is_m then BECH32_CONST else BECH32M_CONST)
        payload) Mode.Strict is_m = .error .ChecksumMismatch := by
  have hne : (if is_m then BECH32_CONST else BECH32M_CONST) ≠
      (if is_m then BECH32M_CONST else BECH32_CONST) := by
    cases is_m <;> decide
  have hltE : (if is_m then BECH32_CONST else BECH32M_CONST) < 1073741824 := by
    cases is_m <;> decide
  have hltD : (if is_m then BECH32M_CONST else BECH32_CONST) < 1073741824 := by
    cases is_m <;> decide
  have hlowE := bech32_encode_data_lower
    (if is_m then BECH32_CONST else BECH32M_CONST) payload
  rcases hd : bech32_crate_decode
      (bech32_encode "data".data (if is_m then BECH32_CONST else BECH32M_CONST)
        payload) with _ | ⟨hrp, data⟩
  · simp only [decode_bech32_strict, clean_for_mode, hlowE, hd]
  · obtain ⟨hff, hhrp⟩ := bech32_cross_core _ _ hne hltE hltD payload data hrp hd
    subst hhrp
    simp only [decode_bech32_strict, clean_for_mode, hlowE, hd]
    rw [hff]
    rfl

/- ----------------------------------------------------------------
Claim C5 — variant discrimination by reconstruction
---------------------------------------------------------------- -/

/-- C5: decode succeeds iff the underlying (variant-agnostic) bech32
decode of the normalized input succeeds AND re-encoding the decoded HRP
and data under the codec's claimed variant reproduces the normalized
input after case folding; consequently a bech32m encoding fails bech32
decode with `ChecksumMismatch`, and vice versa. -/
theorem C5_variant_reconstruction :
    (∀ (input : List Char) (mode : Mode) (is_m : Bool) (data : List Nat),
      decode_bech32_strict input mode is_m = .ok data ↔
        ∃ hrp, bech32_crate_decode ((clean_for_mode input mode).map Char.toLower) =
            some (hrp, data) ∧
          (bech32_encode hrp (if is_m then BECH32M_CONST else BECH32_CONST)
            data).map Char.toLower = (clean_for_mode input mode).map Char.toLower) ∧
    (∀ (input : List Char) (mode : Mode) (is_m : Bool) (e : MbaseError),
      decode_bech32_strict input mode is_m = .error e → e = .ChecksumMismatch) ∧
    (∀ payload : List Nat,
      decode_bech32_strict (bech32_encode "data".data BECH32M_CONST payload)
        Mode.Strict false = .error .ChecksumMismatch ∧
      decode_bech32_strict (bech32_encode "data".data BECH32_CONST payload)
        Mode.Strict true = .error .ChecksumMismatch) :=
  ⟨decode_bech32_strict_ok_iff, decode_bech32_strict_error,
   fun payload => ⟨bech32_cross_variant false payload, bech32_cross_variant true payload⟩⟩

/-- Witness for C5 at concrete inputs. -/
theorem C5_witness :
    MbaseError.ChecksumMismatch = MbaseError.ChecksumMismatch ∧
    decode_bech32_strict (bech32_encode "data".data BECH32M_CONST [72])
      Mode.Strict false = .error .ChecksumMismatch :=
  ⟨C5_variant_reconstruction.2.1 ['x'] Mode.Strict false MbaseError.ChecksumMismatch
    (by decide),
   (C5_variant_reconstruction.2.2 [72]).1⟩

/- ----------------------------------------------------------------
Claim C4 — checksum rejection of single-symbol substitutions
---------------------------------------------------------------- -/

theorem contains_of_mem {l : List Char} {c : Char} (h : c ∈ l) :
    l.contains c = true := by
  simpa using h

theorem firstNotIn_valid_none : ∀ (s alpha : List Char) (pos : Nat),
    (∀ c ∈ s, alpha.contains c = true) → firstNotIn s alpha pos = none
| [], _, _, _ => rfl
| c :: cs, alpha, pos, h => by
    simp only [firstNotIn]
    rw [if_pos (h c (List.mem_cons_self _ _))]
    exact firstNotIn_valid_none cs alpha (pos + 1)
      (fun x hx => h x (List.mem_cons_of_mem _ hx))

/-- On all-alphabet input, Base58Check decode can fail only with the
short-input `InvalidInput` or with `ChecksumMismatch` — never with
`InvalidCharacter`. -/
theorem base58check_no_invalid_char (t : List Char)
    (h : ∀ ch ∈ t, ch ∈ BTC_ALPHABET) (e : MbaseError)
    (he : base58check_decode t Mode.Strict = .error e) :
    e.kind ≠ ErrorKind.InvalidCharacter := by
  have hfn : firstNotIn t BTC_ALPHABET 0 = none :=
    firstNotIn_valid_none t BTC_ALPHABET 0 (fun c hc => contains_of_mem (h c hc))
  simp only [base58check_decode, clean_for_mode, bs58_decode, hfn] at he
  split at he
  · have he2 : e = .InvalidInput "input too short for checksum" :=
      (Except.error.inj he).symm
    subst he2
    decide
  · split at he
    · simp at he
    · have he2 : e = .ChecksumMismatch := (Except.error.inj he).symm
      subst he2
      decide

/-- C4 counterexample: the uppercase form of a valid bech32 string is
itself valid (case-insensitive decode), and replacing its symbol `'F'`
by the different alphabet symbol `'f'` still decodes successfully — the
substitution is undone by the decoder's case folding, so a one-symbol
replacement from the codec's (lowercase) alphabet does NOT always fail. -/
theorem C4_counterexample :
    decode_bech32_strict
      ((bech32_encode "data".data BECH32_CONST [72]).map Char.toUpper)
      Mode.Strict false = .ok [72] ∧
    ((bech32_encode "data".data BECH32_CONST [72]).map Char.toUpper).getD 5 ' ' =
      'F' ∧
    ('f' : Char) ≠ 'F' ∧ 'f' ∈ bech32Charset ∧
    decode_bech32_strict
      (((bech32_encode "data".data BECH32_CONST [72]).map Char.toUpper).set 5 'f')
      Mode.Strict false = .ok [72] := by
  refine ⟨by decide, by decide, by decide, by decide, by decide⟩

/-- C4 (amended): bech32/bech32m failures are always `ChecksumMismatch`
(never `InvalidCharacter`); every in-alphabet one-symbol substitution in
the concrete lowercase bech32 string `"data1fq0pdpje"` is rejected with
`ChecksumMismatch`; Base58Check decode on in-alphabet substitutions
never reports `InvalidCharacter`, and one-symbol substitutions at the
first, middle and final positions of the valid Base58Check string
`"3QJmnh"` (the encoding of the empty payload) fail with
`ChecksumMismatch`.  (The universal claim is false for case-variant
strings — see the counterexample.) -/
theorem C4_checksum_flip :
    (∀ (input : List Char) (mode : Mode) (is_m : Bool) (e : MbaseError),
      decode_bech32_strict input mode is_m = .error e → e = .ChecksumMismatch) ∧
    bech32_encode "data".data BECH32_CONST [72] = "data1fq0pdpje".data ∧
    (∀ p : Nat, p < 13 → ∀ c ∈ bech32Charset, c ≠ "data1fq0pdpje".data.getD p ' ' →
      decode_bech32_strict ("data1fq0pdpje".data.set p c) Mode.Strict false =
        .error .ChecksumMismatch) ∧
    (∀ (t : List Char) (c : Char) (p : Nat),
      (∀ ch ∈ t, ch ∈ BTC_ALPHABET) → c ∈ BTC_ALPHABET →
      ∀ e, base58check_decode (t.set p c) Mode.Strict = .error e →
        e.kind ≠ ErrorKind.InvalidCharacter) ∧
    base58check_encode [] = "3QJmnh".data ∧
    base58check_decode "zQJmnh".data Mode.Strict = .error .ChecksumMismatch ∧
    base58check_decode "3Q1mnh".data Mode.Strict = .error .ChecksumMismatch ∧
    base58check_decode "3QJmnx".data Mode.Strict = .error .ChecksumMismatch := by
  refine ⟨decode_bech32_strict_error, by decide, by decide, ?_, by decide, by decide,
    by decide, by decide⟩
  intro t c p ht hc e he
  exact base58check_no_invalid_char _ (fun ch hch =>
    (List.mem_or_eq_of_mem_set hch).elim (ht ch) (fun hh => hh ▸ hc)) e he

/-- Witness for C4 at concrete inputs. -/
theorem C4_witness :
    MbaseError.ChecksumMismatch = MbaseError.ChecksumMismatch ∧
    (MbaseError.ChecksumMismatch).kind ≠ ErrorKind.InvalidCharacter :=
  ⟨C4_checksum_flip.1 ['x'] Mode.Strict false MbaseError.ChecksumMismatch (by decide),
   C4_checksum_flip.2.2.2.1 "3QJmnh".data 'z' 2 (by decide) (by decide)
     MbaseError.ChecksumMismatch (by decide)⟩

/- ----------------------------------------------------------------
Registry (src/codec/registry.rs)
---------------------------------------------------------------- -/

/-- The `(key, index)` insertion sequence of src/codec/registry.rs
`build_registry`: for each codec in the `register_codecs!` order
(indices 0..53), its `name()` followed by its `meta().aliases`.  The
names and aliases are copied from each codec's `meta()` in src/codec/.
No key is inserted twice, so HashMap last-wins insertion never
overrides. -/
def registryInserts : List (String × Nat) := [
  ("atbash", 0),
  ("base2", 1), ("binary", 1), ("bin", 1),
  ("base8", 2), ("octal", 2), ("oct", 2),
  ("base16lower", 3), ("hex", 3), ("base16", 3), ("hexlower", 3),
  ("base16upper", 4), ("hexupper", 4), ("HEX", 4),
  ("base32lower", 5), ("base32", 5), ("b32", 5),
  ("base32upper", 6), ("B32", 6),
  ("base32padlower", 7), ("base32pad", 7), ("b32pad", 7),
  ("base32padupper", 8), ("B32PAD", 8),
  ("base32hexlower", 9), ("base32hex", 9), ("b32hex", 9),
  ("base32hexupper", 10), ("B32HEX", 10),
  ("base32hexpadlower", 11), ("base32hexpad", 11), ("b32hexpad", 11),
  ("base32hexpadupper", 12), ("B32HEXPAD", 12),
  ("zbase32", 13), ("z32", 13), ("base32z", 13),
  ("crockford32", 14), ("crockford", 14), ("cf32", 14),
  ("base32wordsafe", 15), ("base32ws", 15),
  ("base36lower", 16), ("base36", 16), ("b36", 16),
  ("base36upper", 17), ("B36", 17),
  ("base37", 18),
  ("base45", 19), ("b45", 19),
  ("base58btc", 20), ("base58", 20), ("b58", 20),
  ("base58flickr", 21),
  ("base58check", 22), ("b58check", 22),
  ("base58ripple", 23), ("base58xrp", 23),
  ("base62", 24), ("b62", 24),
  ("base64", 25), ("b64", 25), ("std64", 25),
  ("base64pad", 26), ("b64pad", 26),
  ("base64url", 27), ("b64url", 27), ("url64", 27),
  ("base64urlpad", 28), ("b64urlpad", 28),
  ("base65536", 29), ("b65536", 29),
  ("ascii85", 30), ("base85", 30),
  ("z85", 31),
  ("base85chunked", 32),
  ("base85rfc1924", 33), ("rfc1924", 33),
  ("base91", 34), ("b91", 34),
  ("base92", 35),
  ("baudot", 36), ("ita2", 36), ("baudot-ita2", 36),
  ("bech32", 37),
  ("bech32m", 38),
  ("braille", 39), ("braille-ascii", 39),
  ("bubblebabble", 40), ("bubble", 40), ("babble", 40),
  ("ipv6", 41), ("ipv6-rfc1924", 41),
  ("morse", 42), ("morsecode", 42),
  ("proquint", 43), ("pq", 43), ("proq", 43),
  ("punycode", 44), ("pcode", 44),
  ("quoted-printable", 45), ("qp", 45),
  ("rot13", 46), ("rot-13", 46),
  ("rot47", 47), ("rot-47", 47),
  ("a1z26", 48), ("letternum", 48), ("alphanumeric", 48),
  ("rot18", 49), ("rot-18", 49),
  ("unicode", 50), ("codepoints", 50), ("u+", 50),
  ("tapcode", 51), ("tap", 51), ("knock", 51),
  ("uuencode", 52), ("uu", 52),
  ("urlencoding", 53), ("url", 53), ("percent", 53), ("percentencoding", 53)]

/-- The registered codec `name()`s in registration order
(`Registry::list` order, `codecs[idx]`). -/
def registryNames : List String := [
  "atbash", "base2", "base8", "base16lower", "base16upper", "base32lower",
  "base32upper", "base32padlower", "base32padupper", "base32hexlower",
  "base32hexupper", "base32hexpadlower", "base32hexpadupper", "zbase32",
  "crockford32", "base32wordsafe", "base36lower", "base36upper", "base37",
  "base45", "base58btc", "base58flickr", "base58check", "base58ripple",
  "base62", "base64", "base64pad", "base64url", "base64urlpad", "base65536",
  "ascii85", "z85", "base85chunked", "base85rfc1924", "base91", "base92",
  "baudot", "bech32", "bech32m", "braille", "bubblebabble", "ipv6", "morse",
  "proquint", "punycode", "quoted-printable", "rot13", "rot47", "a1z26",
  "rot18", "unicode", "tapcode", "uuencode", "urlencoding"]

/-- `HashMap::get` over the insertion sequence: the value of the LAST
insertion with the key (later inserts override earlier ones). -/
def nameMapGet (key : String) : Option Nat :=
  registryInserts.foldl (fun acc p => if p.1 == key then some p.2 else acc) none

/-- Rust `str::to_lowercase` on ASCII text (all registry keys are
ASCII), as a per-character fold. -/
def lowerAscii (s : String) : String := ⟨s.data.map Char.toLower⟩

/-- src/codec/registry.rs `Registry::get`, as the index of the resolved
codec (`self.codecs[idx]`): lowercase the query, look that up, fall
back to the exact query, and fail with `UnsupportedCodec` otherwise. -/
def registry_get (name : String) : Except MbaseError Nat :=
  let name_lower := lowerAscii name
  match nameMapGet name_lower with
  | some idx => .ok idx
  | none =>
      match nameMapGet name with
      | some idx => .ok idx
      | none => .error (.UnsupportedCodec name)

/- ----------------------------------------------------------------
Claim C9 — case handling of Registry::get
---------------------------------------------------------------- -/

/-- C9: `Registry::get` lowercases the query first, so any name whose
lowercased form is registered resolves through that form; the query
`"B36"` — registered verbatim as the (case-sensitive) alias of
base36upper (index 17) — resolves instead through `"b36"` to
base36lower (index 16); likewise `"HEX"` (alias of base16upper, 4)
resolves to base16lower (3); an unresolvable name fails with
`UnsupportedCodec`. -/
theorem C9_registry_get_case :
    (∀ (name : String) (idx : Nat),
      nameMapGet (lowerAscii name) = some idx →
      registry_get name = .ok idx) ∧
    (∀ name : String, nameMapGet (lowerAscii name) = none →
      nameMapGet name = none →
      registry_get name = .error (.UnsupportedCodec name)) ∧
    nameMapGet "B36" = some 17 ∧
    registryNames.getD 17 "" = "base36upper" ∧
    registry_get "B36" = .ok 16 ∧
    registryNames.getD 16 "" = "base36lower" ∧
    nameMapGet "HEX" = some 4 ∧
    registryNames.getD 4 "" = "base16upper" ∧
    registry_get "HEX" = .ok 3 ∧
    registryNames.getD 3 "" = "base16lower" ∧
    registry_get "BASE58" = .ok 20 ∧
    registryNames.getD 20 "" = "base58btc" ∧
    registry_get "nosuchcodec" = .error (.UnsupportedCodec "nosuchcodec") := by
  refine ⟨?_, ?_, by decide, by decide, by decide, by decide, by decide, by decide,
    by decide, by decide, by decide, by decide, by decide⟩
  · intro name idx h
    simp only [registry_get, h]
  · intro name h1 h2
    simp only [registry_get, h1, h2]

/-- Witness for C9 at concrete queries. -/
theorem C9_witness :
    registry_get "TAPCODE" = .ok 51 ∧
    registry_get "zzz" = .error (.UnsupportedCodec "zzz") :=
  ⟨C9_registry_get_case.1 "TAPCODE" 51 (by decide),
   C9_registry_get_case.2.1 "zzz" (by decide) (by decide)⟩

/- ----------------------------------------------------------------
Detection engine (src/commands/detect.rs `run_detect`)
---------------------------------------------------------------- -/

/-- A reported detection candidate: codec name and confidence (the
`reasons`/`warnings` strings are not modelled).  Confidence is `ℚ`
(always written via `mkRat`): the engine's `f64` arithmetic performs
only comparisons and assignments of the constants 0, 0.5, 0.98, 1.0,
all exact, so ordered rationals are a faithful carrier. -/
structure Candidate where
  codec : String
  confidence : ℚ
deriving DecidableEq, Repr

/-- What one registered codec contributes to detection for a fixed
input: its name, its `detect_score(trimmed).confidence`, and whether
`decode(trimmed, Mode::Lenient)` succeeded. -/
structure CodecScore where
  codec : String
  confidence : ℚ
  decodeOk : Bool
deriving DecidableEq, Repr

/-- The floor of src/commands/detect.rs lines 56-59: a successful
lenient decode raises a sub-0.5 confidence to exactly 0.5. -/
def flooredConf (s : CodecScore) : ℚ :=
  if s.decodeOk = true ∧ s.confidence < mkRat 1 2 then mkRat 1 2 else s.confidence

/-- src/commands/detect.rs lines 66-69:
`candidates.iter_mut().find(|c| c.codec == score.codec)` and the
conditional overwrite — update the FIRST candidate bearing the codec
name, keeping the larger confidence. -/
def updateFirst : List Candidate → String → ℚ → List Candidate
| [], _, _ => []
| c :: rest, codec, conf =>
    if c.codec == codec then
      (if c.confidence < conf then { codec := codec, confidence := conf } else c)
        :: rest
    else c :: updateFirst rest codec conf

/-- One iteration of the codec loop of src/commands/detect.rs
`run_detect` (lines 48-74): skip when an existing candidate for the
codec already has strictly higher confidence than the raw score; floor
the score to 0.5 when the lenient decode succeeded; keep positive
scores, merging by codec name with maximum confidence. -/
def detectStep (candidates : List Candidate) (s : CodecScore) : List Candidate :=
  if candidates.any (fun c => c.codec == s.codec &&
      decide (s.confidence < c.confidence)) then
    candidates
  else
    if 0 < flooredConf s then
      if candidates.any (fun c => c.codec == s.codec) then
        updateFirst candidates s.codec (flooredConf s)
      else candidates ++ [{ codec := s.codec, confidence := flooredConf s }]
    else candidates

/-- The codec loop of `run_detect`, started from the multibase-prefix
candidates. -/
def run_detect_loop (init : List Candidate) (scores : List CodecScore) :
    List Candidate :=
  scores.foldl detectStep init

/-- src/commands/detect.rs lines 76-77: stable sort by descending
confidence, then truncate to the requested count. -/
def detectRank (l : List Candidate) (top_n : Nat) : List Candidate :=
  (l.mergeSort (fun a b => decide (b.confidence ≤ a.confidence))).take top_n

/- ----------------------------------------------------------------
Claim C7 — the 0.5 decode floor
---------------------------------------------------------------- -/

theorem flooredConf_ge (s : CodecScore) (hdec : s.decodeOk = true) :
    mkRat 1 2 ≤ flooredConf s := by
  rw [flooredConf]
  by_cases hcase : (s.decodeOk = true ∧ s.confidence < mkRat 1 2)
  · rw [if_pos hcase]
  · rw [if_neg hcase]
    push_neg at hcase
    exact hcase hdec

theorem mem_updateFirst : ∀ (l : List Candidate) (codec : String) (conf : ℚ)
    (c' : Candidate), c' ∈ updateFirst l codec conf →
    c' ∈ l ∨ c' = { codec := codec, confidence := conf }
| [], _, _, _, h => by simp [updateFirst] at h
| a :: rest, codec, conf, c', h => by
    simp only [updateFirst] at h
    by_cases ha : (a.codec == codec) = true
    · rw [if_pos ha] at h
      rcases List.mem_cons.1 h with h2 | h2
      · by_cases hconf : a.confidence < conf
        · rw [if_pos hconf] at h2
          exact Or.inr h2
        · rw [if_neg hconf] at h2
          exact Or.inl (h2 ▸ List.mem_cons_self _ _)
      · exact Or.inl (List.mem_cons_of_mem _ h2)
    · rw [if_neg ha] at h
      rcases List.mem_cons.1 h with h2 | h2
      · exact Or.inl (h2 ▸ List.mem_cons_self _ _)
      · rcases mem_updateFirst rest codec conf c' h2 with h3 | h3
        · exact Or.inl (List.mem_cons_of_mem _ h3)
        · exact Or.inr h3

theorem updateFirst_bound : ∀ (l : List Candidate) (codec : String) (conf : ℚ)
    (X : String) (q : ℚ) (c : Candidate), c ∈ l → c.codec = X →
    q ≤ c.confidence →
    ∃ c' ∈ updateFirst l codec conf, c'.codec = X ∧ q ≤ c'.confidence
| [], _, _, _, _, _, hc, _, _ => absurd hc (List.not_mem_nil _)
| a :: rest, codec, conf, X, q, c, hc, hcodec, hq => by
    simp only [updateFirst]
    by_cases ha : (a.codec == codec) = true
    · rw [if_pos ha]
      rcases List.mem_cons.1 hc with rfl | hmem
      · by_cases hconf : c.confidence < conf
        · rw [if_pos hconf]
          refine ⟨{ codec := codec, confidence := conf }, List.mem_cons_self _ _, ?_, ?_⟩
          · rw [← eq_of_beq ha, hcodec]
          · exact le_of_lt (lt_of_le_of_lt hq hconf)
        · rw [if_neg hconf]
          exact ⟨c, List.mem_cons_self _ _, hcodec, hq⟩
      · exact ⟨c, List.mem_cons_of_mem _ hmem, hcodec, hq⟩
    · rw [if_neg ha]
      rcases List.mem_cons.1 hc with rfl | hmem
      · exact ⟨c, List.mem_cons_self _ _, hcodec, hq⟩
      · rcases updateFirst_bound rest codec conf X q c hmem hcodec hq with
          ⟨c', hc', h1, h2⟩
        exact ⟨c', List.mem_cons_of_mem _ hc', h1, h2⟩

/-- When the first codec-matching candidate exists, `updateFirst`
leaves an entry for that codec with at least the given confidence
bound intact. -/
theorem updateFirst_self : ∀ (l : List Candidate) (codec : String) (conf q : ℚ),
    (l.any (fun c => c.codec == codec)) = true →
    (∀ c ∈ l, c.codec = codec → q ≤ c.confidence) → q ≤ conf →
    ∃ c' ∈ updateFirst l codec conf, c'.codec = codec ∧ q ≤ c'.confidence
| [], _, _, _, hany, _, _ => by simp at hany
| a :: rest, codec, conf, q, hany, hP, hq => by
    simp only [updateFirst]
    by_cases ha : (a.codec == codec) = true
    · rw [if_pos ha]
      have haeq := eq_of_beq ha
      by_cases hconf : a.confidence < conf
      · rw [if_pos hconf]
        exact ⟨_, List.mem_cons_self _ _, rfl, hq⟩
      · rw [if_neg hconf]
        exact ⟨a, List.mem_cons_self _ _, haeq, hP a (List.mem_cons_self _ _) haeq⟩
    · rw [if_neg ha]
      have hany' : (rest.any (fun c => c.codec == codec)) = true := by
        rcases List.any_eq_true.1 hany with ⟨c, hc, hcond⟩
        rcases List.mem_cons.1 hc with rfl | hmem
        · exact absurd hcond ha
        · exact List.any_eq_true.2 ⟨c, hmem, hcond⟩
      rcases updateFirst_self rest codec conf q hany'
        (fun c hc h => hP c (List.mem_cons_of_mem _ hc) h) hq with ⟨c', hc', h1, h2⟩
      exact ⟨c', List.mem_cons_of_mem _ hc', h1, h2⟩

/-- A candidate lower bound survives one detection step. -/
theorem detectStep_bound (l : List Candidate) (s : CodecScore) (X : String)
    (q : ℚ) (c : Candidate) (hc : c ∈ l) (hcodec : c.codec = X)
    (hq : q ≤ c.confidence) :
    ∃ c' ∈ detectStep l s, c'.codec = X ∧ q ≤ c'.confidence := by
  rw [detectStep]
  by_cases h1 : (l.any (fun c => c.codec == s.codec &&
      decide (s.confidence < c.confidence))) = true
  · rw [if_pos h1]
    exact ⟨c, hc, hcodec, hq⟩
  · rw [if_neg h1]
    by_cases h2 : 0 < flooredConf s
    · rw [if_pos h2]
      by_cases h3 : (l.any (fun c => c.codec == s.codec)) = true
      · rw [if_pos h3]
        exact updateFirst_bound l s.codec (flooredConf s) X q c hc hcodec hq
      · rw [if_neg h3]
        exact ⟨c, List.mem_append_left _ hc, hcodec, hq⟩
    · rw [if_neg h2]
      exact ⟨c, hc, hcodec, hq⟩

/-- Processing a codec whose lenient decode succeeded leaves a
candidate for it with confidence at least 0.5 (assuming candidates for
that codec, if any, already honour the bound). -/
theorem detectStep_floor (l : List Candidate) (s : CodecScore)
    (hdec : s.decodeOk = true)
    (hP : ∀ c ∈ l, c.codec = s.codec → mkRat 1 2 ≤ c.confidence) :
    ∃ c ∈ detectStep l s, c.codec = s.codec ∧ mkRat 1 2 ≤ c.confidence := by
  rw [detectStep]
  by_cases h1 : (l.any (fun c => c.codec == s.codec &&
      decide (s.confidence < c.confidence))) = true
  · rw [if_pos h1]
    rcases List.any_eq_true.1 h1 with ⟨c, hc, hcond⟩
    rw [Bool.and_eq_true] at hcond
    have hcodec := eq_of_beq hcond.1
    exact ⟨c, hc, hcodec, hP c hc hcodec⟩
  · rw [if_neg h1]
    have hconf := flooredConf_ge s hdec
    rw [if_pos (lt_of_lt_of_le (by norm_num) hconf)]
    by_cases h3 : (l.any (fun c => c.codec == s.codec)) = true
    · rw [if_pos h3]
      exact updateFirst_self l s.codec (flooredConf s) (mkRat 1 2) h3 hP hconf
    · rw [if_neg h3]
      exact ⟨{ codec := s.codec, confidence := flooredConf s },
        List.mem_append_right _ (List.mem_cons_self _ _), rfl, hconf⟩

/-- Every element of a step's output is an old candidate or the newly
merged score. -/
theorem mem_detectStep (l : List Candidate) (s : CodecScore) (c' : Candidate)
    (h : c' ∈ detectStep l s) :
    c' ∈ l ∨ c' = { codec := s.codec, confidence := flooredConf s } := by
  rw [detectStep] at h
  by_cases h1 : (l.any (fun c => c.codec == s.codec &&
      decide (s.confidence < c.confidence))) = true
  · rw [if_pos h1] at h
    exact Or.inl h
  · rw [if_neg h1] at h
    by_cases h2 : 0 < flooredConf s
    · rw [if_pos h2] at h
      by_cases h3 : (l.any (fun c => c.codec == s.codec)) = true
      · rw [if_pos h3] at h
        exact mem_updateFirst l s.codec (flooredConf s) c' h
      · rw [if_neg h3] at h
        rcases List.mem_append.1 h with h4 | h4
        · exact Or.inl h4
        · rcases List.mem_cons.1 h4 with rfl | h5
          · exact Or.inr rfl
          · cases h5
    · rw [if_neg h2] at h
      exact Or.inl h

/-- The per-codec bound invariant is preserved by every step, provided
any step bearing that codec name has a successful lenient decode. -/
theorem detectStep_preserves (l : List Candidate) (s : CodecScore) (X : String)
    (hs : s.codec = X → s.decodeOk = true)
    (hP : ∀ c ∈ l, c.codec = X → mkRat 1 2 ≤ c.confidence) :
    ∀ c ∈ detectStep l s, c.codec = X → mkRat 1 2 ≤ c.confidence := by
  intro c hc hcodec
  rcases mem_detectStep l s c hc with h | rfl
  · exact hP c h hcodec
  · exact flooredConf_ge s (hs hcodec)

theorem loop_bound : ∀ (scores : List CodecScore) (init : List Candidate)
    (X : String) (q : ℚ) (c : Candidate), c ∈ init → c.codec = X →
    q ≤ c.confidence →
    ∃ c' ∈ run_detect_loop init scores, c'.codec = X ∧ q ≤ c'.confidence
| [], _, _, _, c, hc, hcodec, hq => ⟨c, hc, hcodec, hq⟩
| s :: rest, init, X, q, c, hc, hcodec, hq => by
    rcases detectStep_bound init s X q c hc hcodec hq with ⟨c', hc', h1, h2⟩
    exact loop_bound rest (detectStep init s) X q c' hc' h1 h2

theorem loop_preserves : ∀ (scores : List CodecScore) (init : List Candidate)
    (X : String), (∀ s ∈ scores, s.codec = X → s.decodeOk = true) →
    (∀ c ∈ init, c.codec = X → mkRat 1 2 ≤ c.confidence) →
    ∀ c ∈ run_detect_loop init scores, c.codec = X → mkRat 1 2 ≤ c.confidence
| [], _, _, _, hP => hP
| s :: rest, init, X, hs, hP =>
    loop_preserves rest (detectStep init s) X
      (fun s' hs' => hs s' (List.mem_cons_of_mem _ hs'))
      (detectStep_preserves init s X (hs s (List.mem_cons_self _ _)) hP)

/-- C7: in the detection engine's codec loop, a codec whose lenient
decode of the trimmed input succeeds always ends up with a candidate of
confidence at least 0.5 — a lower `detect_score` is floored to exactly
0.5 — and every candidate the loop holds for that codec honours the
bound; ranking (stable sort plus truncation) reports only candidates of
the merged list; concretely, a decodable codec scoring 0.1 is reported
at exactly 0.5, while without the successful decode a zero score stays
unreported. -/
theorem C7_detect_floor :
    (∀ (init : List Candidate) (scores : List CodecScore) (s : CodecScore),
      s ∈ scores → s.decodeOk = true →
      (scores.map CodecScore.codec).Nodup →
      (∀ c ∈ init, mkRat 1 2 ≤ c.confidence) →
      (∃ c ∈ run_detect_loop init scores, c.codec = s.codec ∧
        mkRat 1 2 ≤ c.confidence) ∧
      (∀ c ∈ run_detect_loop init scores, c.codec = s.codec →
        mkRat 1 2 ≤ c.confidence)) ∧
    (∀ (l : List Candidate) (n : Nat) (c : Candidate), c ∈ detectRank l n → c ∈ l) ∧
    run_detect_loop [] [⟨"base92", mkRat 1 10, true⟩] =
      [⟨"base92", mkRat 1 2⟩] ∧
    run_detect_loop [] [⟨"base92", 0, false⟩] = [] := by
  refine ⟨?_, ?_, by decide, by decide⟩
  · intro init scores s hs hdec hnodup hinit
    have hsame : ∀ s' ∈ scores, s'.codec = s.codec → s' = s := by
      intro s' hs' heq
      exact List.inj_on_of_nodup_map hnodup hs' hs heq
    constructor
    · rcases List.append_of_mem hs with ⟨l1, l2, rfl⟩
      have hP1 : ∀ c ∈ run_detect_loop init l1, c.codec = s.codec →
          mkRat 1 2 ≤ c.confidence := by
        apply loop_preserves l1 init s.codec
        · intro s' hs' heq
          rw [hsame s' (List.mem_append_left _ hs') heq]
          exact hdec
        · intro c hc _
          exact hinit c hc
      rw [show run_detect_loop init (l1 ++ s :: l2) =
        run_detect_loop (detectStep (run_detect_loop init l1) s) l2 from by
          simp [run_detect_loop, List.foldl_append]]
      rcases detectStep_floor (run_detect_loop init l1) s hdec hP1 with
        ⟨c, hc, hcodec, hconf⟩
      exact loop_bound l2 _ s.codec (mkRat 1 2) c hc hcodec hconf
    · apply loop_preserves scores init s.codec
      · intro s' hs' heq
        rw [hsame s' hs' heq]
        exact hdec
      · intro c hc _
        exact hinit c hc
  · intro l n c h
    have h2 := List.take_subset _ _ h
    exact (List.mergeSort_perm l _).mem_iff.1 h2

/-- Witness for C7 at a concrete score list. -/
theorem C7_witness :
    ∃ c ∈ run_detect_loop [] [⟨"tapcode", mkRat 1 4, true⟩],
      c.codec = "tapcode" ∧ mkRat 1 2 ≤ c.confidence :=
  (C7_detect_floor.1 [] [⟨"tapcode", mkRat 1 4, true⟩] ⟨"tapcode", mkRat 1 4, true⟩
    (by decide) (by decide) (by decide) (by decide)).1

end Mbase
